import Mathlib

set_option maxHeartbeats 1000000

/-!
Shallow embedding of the multi-source question router implemented in
`streamlit_app.py`.  Python strings are modelled as `List Char`, Python
sets as duplicate-free lists built with `setAdd` (first-insertion order),
and Python dicts as insertion-ordered association lists manipulated with
`dictInsert` / `dictGet`, mirroring CPython dict semantics (assignment to
an existing key overwrites in place, a new key is appended).
-/

/-- Word characters as matched by the regex class `\w` used throughout the
source (`re.findall(r'\b\w+\b', ...)`), in its ASCII reading. -/
def isWordChar (c : Char) : Bool := c.isAlphanum || c = '_'

/-- Python `str.lower()`, modelled with `Char.toLower` (ASCII case folding). -/
def lowerStr (s : List Char) : List Char := s.map Char.toLower

/-- Python `str.strip()`: drop leading and trailing whitespace. -/
def pyStrip (s : List Char) : List Char :=
  ((s.dropWhile Char.isWhitespace).reverse.dropWhile Char.isWhitespace).reverse

/-- Python `str.startswith` on list representations; also the building block
of the substring test. -/
def listPrefixOf : List Char → List Char → Bool
  | [], _ => true
  | _ :: _, [] => false
  | a :: as, b :: bs => decide (a = b) && listPrefixOf as bs

/-- Python substring test: `strContains hay needle` models `needle in hay`. -/
def strContains : List Char → List Char → Bool
  | [], needle => needle.isEmpty
  | c :: t, needle => listPrefixOf needle (c :: t) || strContains t needle

/-- Python `set.add`: append the element unless it is already present. -/
def setAdd {α} [DecidableEq α] (x : α) (l : List α) : List α :=
  if x ∈ l then l else l ++ [x]

/-- Python `set(iterable)`. -/
def setFromList {α} [DecidableEq α] (l : List α) : List α :=
  l.foldl (fun acc x => setAdd x acc) []

/-- Python `set.update(iterable)`. -/
def addAll {α} [DecidableEq α] (acc new : List α) : List α :=
  new.foldl (fun a x => setAdd x a) acc

/-- Python dict assignment `d[k] = v` on an insertion-ordered association
list: overwrite in place when the key exists, append otherwise. -/
def dictInsert {α} (k : List Char) (v : α) : List (List Char × α) → List (List Char × α)
  | [] => [(k, v)]
  | p :: rest => if p.1 = k then (p.1, v) :: rest else p :: dictInsert k v rest

/-- Python dict lookup `d.get(k)`. -/
def dictGet {α} (k : List Char) : List (List Char × α) → Option α
  | [] => none
  | p :: rest => if p.1 = k then some p.2 else dictGet k rest

/-- Tokenizer worker: `cur` holds the word currently being read, reversed. -/
def tokenizeAux : List Char → List Char → List (List Char)
  | cur, [] => if cur.isEmpty then [] else [cur.reverse]
  | cur, c :: cs =>
    if isWordChar c then tokenizeAux (c :: cur) cs
    else if cur.isEmpty then tokenizeAux [] cs
    else cur.reverse :: tokenizeAux [] cs

/-- Python `re.findall(r'\b\w+\b', s)`: the maximal runs of word characters
of `s`, in order. -/
def tokenize (s : List Char) : List (List Char) := tokenizeAux [] s

/-- One catalogued data source: the `source_info` dict built by
`load_semantic_model_structure`. -/
structure SourceInfo where
  name : List Char
  description : List Char
  keywords : List (List Char)
  tables : List (List Char)
  columns : List (List Char)
  synonyms : List (List Char)
  measures : List (List Char)
  dimensions : List (List Char)
deriving DecidableEq

/-- One entry of the mapping returned by `analyze_question_for_sources`. -/
structure MatchResult where
  score : Nat
  matched_keywords : List (List Char)
  exact_matches : List (List Char)
  description : List Char
deriving DecidableEq

/-- The per-source body of the loop in `analyze_question_for_sources`:
keyword-set intersection with the question's word set, plus an exact-name
bonus of 2 per table/column/measure name occurring (case-insensitively) as
a substring of the question; `none` when the keyword overlap is empty. -/
def matchSource (question : List Char) (info : SourceInfo) : Option MatchResult :=
  let question_lower := lowerStr question
  let question_words := setFromList (tokenize question_lower)
  let keywords := setFromList info.keywords
  let matched := question_words.filter fun w => decide (w ∈ keywords)
  if matched.isEmpty then none
  else
    let tableHits := info.tables.filter fun t => strContains question_lower (lowerStr t)
    let columnHits := info.columns.filter fun c => strContains question_lower (lowerStr c)
    let measureHits := info.measures.filter fun m => strContains question_lower (lowerStr m)
    some { score := matched.length + 2 * (tableHits.length + columnHits.length + measureHits.length),
           matched_keywords := matched,
           exact_matches :=
             tableHits.map (fun t => "table: ".toList ++ t)
               ++ columnHits.map (fun c => "column: ".toList ++ c)
               ++ measureHits.map (fun m => "measure: ".toList ++ m),
           description := info.description }

/-- One iteration of the source loop of `analyze_question_for_sources`. -/
def analyzeStep (question : List Char) (acc : List (List Char × MatchResult))
    (p : List Char × SourceInfo) : List (List Char × MatchResult) :=
  match matchSource question p.2 with
  | none => acc
  | some r => dictInsert p.2.name r acc

/-- `analyze_question_for_sources` from `streamlit_app.py`. -/
def analyze_question_for_sources (question : List Char)
    (data_sources : List (List Char × SourceInfo)) : List (List Char × MatchResult) :=
  if data_sources.isEmpty then [] else data_sources.foldl (analyzeStep question) []

/-- The three routing strategies returned by `determine_routing_strategy`. -/
inductive Strategy
  | direct
  | clarify
  | normal
deriving DecidableEq

/-- Stable insertion of one entry into a list already sorted by descending
score: skip entries with a strictly larger score, insert before the first
entry whose score is not larger. -/
def insertByScore (x : List Char × MatchResult) :
    List (List Char × MatchResult) → List (List Char × MatchResult)
  | [] => [x]
  | y :: ys => if y.2.score ≤ x.2.score then x :: y :: ys else y :: insertByScore x ys

/-- Python `sorted(items, key=lambda x: x[1]['score'], reverse=True)`:
a stable sort by descending score. -/
def sortByScoreDesc : List (List Char × MatchResult) → List (List Char × MatchResult)
  | [] => []
  | x :: xs => insertByScore x (sortByScoreDesc xs)

/-- `determine_routing_strategy` from `streamlit_app.py`. -/
def determine_routing_strategy (source_matches : List (List Char × MatchResult))
    (threshold : Nat) : Strategy × List (List Char) × List (List Char × MatchResult) :=
  if source_matches.isEmpty then (.normal, [], [])
  else
    let relevant_sources := source_matches.filter fun p => threshold ≤ p.2.score
    match relevant_sources with
    | [] => (.normal, [], [])
    | [p] => (.direct, [p.1], [p])
    | p :: q :: rest =>
      (.clarify, (sortByScoreDesc (p :: q :: rest)).map (fun x => x.1), p :: q :: rest)

/-- `create_source_enhancement_prompt` from `streamlit_app.py`: look the
descriptor up by case-insensitive name; fall back to the raw question when
no descriptor matches. -/
def create_source_enhancement_prompt (question selected_source : List Char)
    (data_sources : List (List Char × SourceInfo)) : List Char :=
  match data_sources.find? (fun p => decide (lowerStr p.2.name = lowerStr selected_source)) with
  | none => question
  | some p =>
    let enhancement := "Focus on data from ".toList ++ selected_source
    let enhancement :=
      if p.2.description.isEmpty then enhancement
      else enhancement ++ " (".toList ++ p.2.description ++ ")".toList
    enhancement ++ ". Question: ".toList ++ question

/-- The cross-turn clarification state kept in
`st.session_state.pending_clarification`. -/
structure PendingClarification where
  original_question : List Char
  available_sources : List (List Char)
deriving DecidableEq

/-- The pending-clarification branch of `process_user_input`: scan the reply
for the first candidate whose name occurs case-insensitively, fall back to
the top-ranked candidate, clear the pending state in both outcomes. -/
def process_clarification_turn (prompt original_question : List Char)
    (available_sources : List (List Char))
    (data_sources : List (List Char × SourceInfo)) : List Char × Option PendingClarification :=
  let selected_source := available_sources.find? fun source =>
    strContains (lowerStr prompt) (lowerStr source)
  match selected_source with
  | some source =>
    (create_source_enhancement_prompt original_question source data_sources, none)
  | none =>
    (create_source_enhancement_prompt original_question
      (available_sources.headD []) data_sources, none)

/-- The routing core of `process_user_input`: given the prompt, the pending
clarification state and the catalog, return the enhanced prompt forwarded to
the external service (`none` when the clarify branch short-circuits the turn
without a downstream call) together with the new pending state. -/
def process_user_input (prompt : List Char) (pending : Option PendingClarification)
    (data_sources : List (List Char × SourceInfo)) :
    Option (List Char) × Option PendingClarification :=
  match pending with
  | some pc =>
    let r := process_clarification_turn prompt pc.original_question pc.available_sources data_sources
    (some r.1, r.2)
  | none =>
    if !data_sources.isEmpty && !(listPrefixOf ("What questions can I ask".toList) prompt) then
      let source_matches := analyze_question_for_sources prompt data_sources
      let r := determine_routing_strategy source_matches 2
      match r.1 with
      | .clarify => (none, some { original_question := prompt, available_sources := r.2.1 })
      | .direct =>
        (some (create_source_enhancement_prompt prompt (r.2.1.headD []) data_sources), none)
      | .normal => (some prompt, none)
    else (some prompt, none)

/-- `filter_warnings` from `streamlit_app.py`, abstracted over the warning
record type; `msg` models `warning.get('message', '')`. -/
def filter_warnings {α} (msg : α → List Char) (warnings : List α) : List α :=
  if warnings.isEmpty then []
  else
    warnings.filter fun warning =>
      let message := lowerStr (msg warning)
      if strContains message ("synonyms are duplicated".toList)
          || strContains message ("synonym".toList) then false
      else if ["may want to rename".toList, "to avoid ambiguity".toList,
          "found in columns".toList].any (fun pat => strContains message pat) then false
      else true

/-- A parsed column entry of the YAML schema description. -/
structure ColumnDef where
  name : List Char
  description : List Char
  synonyms : List (List Char)
deriving DecidableEq

/-- A parsed table entry of the YAML schema description. -/
structure TableDef where
  name : List Char
  description : List Char
  columns : List ColumnDef
deriving DecidableEq

/-- A parsed measure entry of the YAML schema description. -/
structure MeasureDef where
  name : List Char
  description : List Char
  synonyms : List (List Char)
deriving DecidableEq

/-- A parsed dimension entry of the YAML schema description. -/
structure DimensionDef where
  name : List Char
  description : List Char
deriving DecidableEq

/-- A parsed logical model of the YAML schema description. -/
structure LogicalModel where
  name : List Char
  description : List Char
  tables : List TableDef
  measures : List MeasureDef
  dimensions : List DimensionDef
deriving DecidableEq

/-- The parsed YAML semantic model handed to the catalog builder. -/
structure SemanticModel where
  logical_models : List LogicalModel
deriving DecidableEq

/-- Description keyword extraction: the tokens of the description string of
length above 2, lowercased and stripped (the list comprehension over
`re.findall(r'\b\w+\b', desc)` in the source). -/
def descKeywords (desc : List Char) : List (List Char) :=
  ((tokenize desc).filter fun w => 2 < w.length).map fun w => pyStrip (lowerStr w)

/-- The column-loop body of `load_semantic_model_structure`: record the
column name, add it and its description words as keywords, then add the
column synonyms (the synonym loop runs even when the column name is empty,
as in the source). -/
def processColumn (info : SourceInfo) (column : ColumnDef) : SourceInfo :=
  let info :=
    let col_name := pyStrip column.name
    if col_name.isEmpty then info
    else
      let kw := setAdd (lowerStr col_name) info.keywords
      let col_desc := pyStrip column.description
      let kw := if col_desc.isEmpty then kw else addAll kw (descKeywords col_desc)
      { info with columns := info.columns ++ [col_name], keywords := kw }
  column.synonyms.foldl
    (fun i synonym =>
      if (pyStrip synonym).isEmpty then i
      else
        { i with synonyms := setAdd (pyStrip (lowerStr synonym)) i.synonyms,
                 keywords := setAdd (pyStrip (lowerStr synonym)) i.keywords })
    info

/-- The table-loop body of `load_semantic_model_structure`. -/
def processTable (info : SourceInfo) (table : TableDef) : SourceInfo :=
  let info :=
    let table_name := pyStrip table.name
    if table_name.isEmpty then info
    else
      let kw := setAdd (lowerStr table_name) info.keywords
      let table_desc := pyStrip table.description
      let kw := if table_desc.isEmpty then kw else addAll kw (descKeywords table_desc)
      { info with tables := info.tables ++ [table_name], keywords := kw }
  table.columns.foldl processColumn info

/-- The measure-loop body of `load_semantic_model_structure` (the synonym
loop runs even when the measure name is empty, as in the source). -/
def processMeasure (info : SourceInfo) (measure : MeasureDef) : SourceInfo :=
  let info :=
    let measure_name := pyStrip measure.name
    if measure_name.isEmpty then info
    else
      let kw := setAdd (lowerStr measure_name) info.keywords
      let measure_desc := pyStrip measure.description
      let kw := if measure_desc.isEmpty then kw else addAll kw (descKeywords measure_desc)
      { info with measures := info.measures ++ [measure_name], keywords := kw }
  measure.synonyms.foldl
    (fun i synonym =>
      if (pyStrip synonym).isEmpty then i
      else
        { i with synonyms := setAdd (pyStrip (lowerStr synonym)) i.synonyms,
                 keywords := setAdd (pyStrip (lowerStr synonym)) i.keywords })
    info

/-- The dimension-loop body of `load_semantic_model_structure`. -/
def processDimension (info : SourceInfo) (dimension : DimensionDef) : SourceInfo :=
  let dim_name := pyStrip dimension.name
  if dim_name.isEmpty then info
  else
    let kw := setAdd (lowerStr dim_name) info.keywords
    let dim_desc := pyStrip dimension.description
    let kw := if dim_desc.isEmpty then kw else addAll kw (descKeywords dim_desc)
    { info with dimensions := info.dimensions ++ [dim_name], keywords := kw }

/-- The per-model descriptor construction of `load_semantic_model_structure`. -/
def buildSource (model : LogicalModel) : SourceInfo :=
  let info : SourceInfo :=
    { name := pyStrip model.name, description := pyStrip model.description,
      keywords := [], tables := [], columns := [], synonyms := [],
      measures := [], dimensions := [] }
  let info := model.tables.foldl processTable info
  let info := model.measures.foldl processMeasure info
  model.dimensions.foldl processDimension info

/-- The model-loop body of `load_semantic_model_structure`: skip models with
an empty stripped name, drop models whose keyword set comes out empty,
otherwise insert under the lowercased name. -/
def loadStep (data_sources : List (List Char × SourceInfo)) (model : LogicalModel) :
    List (List Char × SourceInfo) :=
  let source_name := pyStrip model.name
  if source_name.isEmpty then data_sources
  else
    let source_info := buildSource model
    if source_info.keywords.isEmpty then data_sources
    else dictInsert (lowerStr source_name) source_info data_sources

/-- `load_semantic_model_structure` from `streamlit_app.py`.  The input is
the parsed YAML semantic model; `none` models the three failure paths of
the source (empty or missing stage file, and a `yaml.safe_load` or other
exception caught by the surrounding `try`), all of which return `{}`. -/
def load_semantic_model_structure (input : Option SemanticModel) :
    List (List Char × SourceInfo) :=
  match input with
  | none => []
  | some semantic_model => semantic_model.logical_models.foldl loadStep []

/-- The double-quote character appearing in the rewrite patterns. -/
def dq : Char := Char.ofNat 34

/-- The dot character separating identifiers in the rewrite patterns. -/
def dot : Char := '.'

/-- Case-insensitive literal matcher for the character classes of the
rewrite regexes (the pattern is lowercase): returns the matched original
text and the remainder. -/
def matchCI : List Char → List Char → Option (List Char × List Char)
  | [], s => some ([], s)
  | _ :: _, [] => none
  | p :: ps, c :: cs =>
    if Char.toLower c = p then
      match matchCI ps cs with
      | some (m, rest) => some (c :: m, rest)
      | none => none
    else none

/-- The database identifier all four rewrite patterns require. -/
def sfdbPat : List Char := "salesforcedb".toList

/-- The schema identifier removed by the rewrite patterns. -/
def publicPat : List Char := "public".toList

/-- Pattern 1 of `modify_salesforce_query`:
quoted salesforceDb, quoted public; replacement keeps the quoted group and
the following dot.  Returns (replacement, matched text, rest). -/
def tryPat1 (s : List Char) : Option (List Char × List Char × List Char) :=
  match s with
  | [] => none
  | c0 :: s1 =>
    if c0 = dq then
      match matchCI sfdbPat s1 with
      | none => none
      | some (sfdb, s2) =>
        match s2 with
        | c1 :: c2 :: c3 :: s3 =>
          if c1 = dq ∧ c2 = dot ∧ c3 = dq then
            match matchCI publicPat s3 with
            | none => none
            | some (pub, s4) =>
              match s4 with
              | c4 :: c5 :: s5 =>
                if c4 = dq ∧ c5 = dot then
                  some (dq :: sfdb ++ [dq, dot],
                        dq :: sfdb ++ dq :: dot :: dq :: pub ++ [dq, dot], s5)
                else none
              | _ => none
          else none
        | _ => none
    else none


/-- Pattern 2 of `modify_salesforce_query`: word boundary, unquoted
salesforceDb, unquoted public; `prevW` records whether the preceding
character is a word character (so the `\b` assertion fails). -/
def tryPat2 (prevW : Bool) (s : List Char) : Option (List Char × List Char × List Char) :=
  if prevW then none
  else
    match matchCI sfdbPat s with
    | none => none
    | some (sfdb, s2) =>
      match s2 with
      | c1 :: s3 =>
        if c1 = dot then
          match matchCI publicPat s3 with
          | none => none
          | some (pub, s4) =>
            match s4 with
            | c2 :: s5 =>
              if c2 = dot then
                some (sfdb ++ [dot], sfdb ++ dot :: pub ++ [dot], s5)
              else none
            | [] => none
        else none
      | [] => none

/-- Pattern 3 of `modify_salesforce_query`: quoted salesforceDb, unquoted
public. -/
def tryPat3 (s : List Char) : Option (List Char × List Char × List Char) :=
  match s with
  | [] => none
  | c0 :: s1 =>
    if c0 = dq then
      match matchCI sfdbPat s1 with
      | none => none
      | some (sfdb, s2) =>
        match s2 with
        | c1 :: c2 :: s3 =>
          if c1 = dq ∧ c2 = dot then
            match matchCI publicPat s3 with
            | none => none
            | some (pub, s4) =>
              match s4 with
              | c3 :: s5 =>
                if c3 = dot then
                  some (dq :: sfdb ++ [dq, dot],
                        dq :: sfdb ++ dq :: dot :: pub ++ [dot], s5)
                else none
              | [] => none
          else none
        | _ => none
    else none

/-- Pattern 4 of `modify_salesforce_query`: word boundary, unquoted
salesforceDb, quoted public. -/
def tryPat4 (prevW : Bool) (s : List Char) : Option (List Char × List Char × List Char) :=
  if prevW then none
  else
    match matchCI sfdbPat s with
    | none => none
    | some (sfdb, s2) =>
      match s2 with
      | c1 :: c2 :: s3 =>
        if c1 = dot ∧ c2 = dq then
          match matchCI publicPat s3 with
          | none => none
          | some (pub, s4) =>
            match s4 with
            | c3 :: c4 :: s5 =>
              if c3 = dq ∧ c4 = dot then
                some (sfdb ++ [dot], sfdb ++ dot :: dq :: pub ++ [dq, dot], s5)
              else none
            | _ => none
        else none
      | _ => none

/-- A successful case-insensitive literal match splits the input and matches
the pattern lowercased. -/
theorem matchCI_eq : ∀ (p s m rest : List Char), matchCI p s = some (m, rest) →
    s = m ++ rest ∧ m.length = p.length ∧ lowerStr m = p := by
  intro p
  induction p with
  | nil =>
    intro s m rest h
    simp [matchCI] at h
    obtain ⟨hm, hr⟩ := h
    subst hm
    subst hr
    simp [lowerStr]
  | cons p0 ps ih =>
    intro s m rest h
    cases s with
    | nil => simp [matchCI] at h
    | cons c cs =>
      simp only [matchCI] at h
      split at h
      · rename_i hc
        cases hmc : matchCI ps cs with
        | none => rw [hmc] at h; simp at h
        | some pr =>
          obtain ⟨m', rest'⟩ := pr
          rw [hmc] at h
          simp only [Option.some.injEq, Prod.mk.injEq] at h
          obtain ⟨hm, hr⟩ := h
          obtain ⟨h1, h2, h3⟩ := ih cs m' rest' hmc
          subst hm
          subst hr
          refine ⟨by simp [h1], by simp [h2], ?_⟩
          simp only [lowerStr, List.map_cons] at h3 ⊢
          rw [hc, h3]
      · simp at h

/-- Pattern 1 consumes at least one character. -/
theorem tryPat1_shrink (s r m rest : List Char) (h : tryPat1 s = some (r, m, rest)) :
    rest.length < s.length := by
  cases s with
  | nil => simp [tryPat1] at h
  | cons c0 s1 =>
    simp only [tryPat1] at h
    split at h
    case isFalse => simp at h
    case isTrue =>
      cases hm1 : matchCI sfdbPat s1 with
      | none => rw [hm1] at h; simp at h
      | some pr1 =>
        obtain ⟨sfdb, s2⟩ := pr1
        rw [hm1] at h
        obtain ⟨hs1, -, -⟩ := matchCI_eq _ _ _ _ hm1
        match s2 with
        | [] => simp at h
        | [c1] => simp at h
        | [c1, c2] => simp at h
        | c1 :: c2 :: c3 :: s3 =>
          simp only at h
          split at h
          case isFalse => simp at h
          case isTrue =>
            cases hm2 : matchCI publicPat s3 with
            | none => rw [hm2] at h; simp at h
            | some pr2 =>
              obtain ⟨pub, s4⟩ := pr2
              rw [hm2] at h
              obtain ⟨hs3, -, -⟩ := matchCI_eq _ _ _ _ hm2
              match s4 with
              | [] => simp at h
              | [c4] => simp at h
              | c4 :: c5 :: s5 =>
                simp only at h
                split at h
                case isFalse => simp at h
                case isTrue =>
                  simp only [Option.some.injEq, Prod.mk.injEq] at h
                  obtain ⟨-, -, hrest⟩ := h
                  subst hrest
                  subst hs1
                  subst hs3
                  simp [List.length_append]
                  omega

/-- Pattern 2 consumes at least one character. -/
theorem tryPat2_shrink (b : Bool) (s r m rest : List Char)
    (h : tryPat2 b s = some (r, m, rest)) : rest.length < s.length := by
  simp only [tryPat2] at h
  split at h
  case isTrue => simp at h
  case isFalse =>
    cases hm1 : matchCI sfdbPat s with
    | none => rw [hm1] at h; simp at h
    | some pr1 =>
      obtain ⟨sfdb, s2⟩ := pr1
      rw [hm1] at h
      obtain ⟨hs, hlen, -⟩ := matchCI_eq _ _ _ _ hm1
      have hpos : 0 < sfdb.length := by rw [hlen]; decide
      match s2 with
      | [] => simp at h
      | c1 :: s3 =>
        simp only at h
        split at h
        case isFalse => simp at h
        case isTrue =>
          cases hm2 : matchCI publicPat s3 with
          | none => rw [hm2] at h; simp at h
          | some pr2 =>
            obtain ⟨pub, s4⟩ := pr2
            rw [hm2] at h
            obtain ⟨hs3, -, -⟩ := matchCI_eq _ _ _ _ hm2
            match s4 with
            | [] => simp at h
            | c2 :: s5 =>
              simp only at h
              split at h
              case isFalse => simp at h
              case isTrue =>
                simp only [Option.some.injEq, Prod.mk.injEq] at h
                obtain ⟨-, -, hrest⟩ := h
                subst hrest
                subst hs
                subst hs3
                simp [List.length_append]
                omega

/-- Pattern 3 consumes at least one character. -/
theorem tryPat3_shrink (s r m rest : List Char) (h : tryPat3 s = some (r, m, rest)) :
    rest.length < s.length := by
  cases s with
  | nil => simp [tryPat3] at h
  | cons c0 s1 =>
    simp only [tryPat3] at h
    split at h
    case isFalse => simp at h
    case isTrue =>
      cases hm1 : matchCI sfdbPat s1 with
      | none => rw [hm1] at h; simp at h
      | some pr1 =>
        obtain ⟨sfdb, s2⟩ := pr1
        rw [hm1] at h
        obtain ⟨hs1, -, -⟩ := matchCI_eq _ _ _ _ hm1
        match s2 with
        | [] => simp at h
        | [c1] => simp at h
        | c1 :: c2 :: s3 =>
          simp only at h
          split at h
          case isFalse => simp at h
          case isTrue =>
            cases hm2 : matchCI publicPat s3 with
            | none => rw [hm2] at h; simp at h
            | some pr2 =>
              obtain ⟨pub, s4⟩ := pr2
              rw [hm2] at h
              obtain ⟨hs3, -, -⟩ := matchCI_eq _ _ _ _ hm2
              match s4 with
              | [] => simp at h
              | c3 :: s5 =>
                simp only at h
                split at h
                case isFalse => simp at h
                case isTrue =>
                  simp only [Option.some.injEq, Prod.mk.injEq] at h
                  obtain ⟨-, -, hrest⟩ := h
                  subst hrest
                  subst hs1
                  subst hs3
                  simp [List.length_append]
                  omega

/-- Pattern 4 consumes at least one character. -/
theorem tryPat4_shrink (b : Bool) (s r m rest : List Char)
    (h : tryPat4 b s = some (r, m, rest)) : rest.length < s.length := by
  simp only [tryPat4] at h
  split at h
  case isTrue => simp at h
  case isFalse =>
    cases hm1 : matchCI sfdbPat s with
    | none => rw [hm1] at h; simp at h
    | some pr1 =>
      obtain ⟨sfdb, s2⟩ := pr1
      rw [hm1] at h
      obtain ⟨hs, hlen, -⟩ := matchCI_eq _ _ _ _ hm1
      have hpos : 0 < sfdb.length := by rw [hlen]; decide
      match s2 with
      | [] => simp at h
      | [c1] => simp at h
      | c1 :: c2 :: s3 =>
        simp only at h
        split at h
        case isFalse => simp at h
        case isTrue =>
          cases hm2 : matchCI publicPat s3 with
          | none => rw [hm2] at h; simp at h
          | some pr2 =>
            obtain ⟨pub, s4⟩ := pr2
            rw [hm2] at h
            obtain ⟨hs3, -, -⟩ := matchCI_eq _ _ _ _ hm2
            match s4 with
            | [] => simp at h
            | [c3] => simp at h
            | c3 :: c4 :: s5 =>
              simp only at h
              split at h
              case isFalse => simp at h
              case isTrue =>
                simp only [Option.some.injEq, Prod.mk.injEq] at h
                obtain ⟨-, -, hrest⟩ := h
                subst hrest
                subst hs
                subst hs3
                simp [List.length_append]
                omega

/-- The `re.sub` scan: walk the string left to right; on a match emit the
replacement and resume after the matched text, otherwise emit one character
and advance, tracking whether the previous character is a word character
for the `\b` assertions. -/
def runSub (tm : Bool → List Char → Option (List Char × List Char × List Char))
    (htm : ∀ b s r m rest, tm b s = some (r, m, rest) → rest.length < s.length) :
    Bool → List Char → List Char
  | prevW, s =>
    match h : tm prevW s with
    | some (r, m, rest) =>
      r ++ runSub tm htm (match m.getLast? with | some d => isWordChar d | none => prevW) rest
    | none =>
      match s with
      | [] => []
      | c :: cs => c :: runSub tm htm (isWordChar c) cs
termination_by _ s => s.length
decreasing_by
· exact htm _ _ _ _ _ h
· simp

/-- `modify_salesforce_query` from `streamlit_app.py`: the four `re.sub`
passes applied in order. -/
def modify_salesforce_query (sql : List Char) : List Char :=
  let s1 := runSub (fun _ s => tryPat1 s) (fun _ s r m rest h => tryPat1_shrink s r m rest h) false sql
  let s2 := runSub tryPat2 tryPat2_shrink false s1
  let s3 := runSub (fun _ s => tryPat3 s) (fun _ s r m rest h => tryPat3_shrink s r m rest h) false s2
  runSub tryPat4 tryPat4_shrink false s3

/-- `execute_dremio_procedure` from `streamlit_app.py`, abstracted over the
external procedure call: the procedure receives the rewritten query, never
the raw statement. -/
def execute_dremio_procedure {α} (proc : List Char → α) (query : List Char) : α :=
  proc (modify_salesforce_query query)

/-- `listPrefixOf` decides the prefix relation. -/
theorem listPrefixOf_iff : ∀ (a b : List Char), listPrefixOf a b = true ↔ ∃ r, b = a ++ r := by
  intro a
  induction a with
  | nil => intro b; simp [listPrefixOf]
  | cons a0 as ih =>
    intro b
    cases b with
    | nil => simp [listPrefixOf]
    | cons b0 bs =>
      simp only [listPrefixOf, Bool.and_eq_true, decide_eq_true_eq, List.cons_append,
        List.cons.injEq, ih]
      constructor
      · rintro ⟨h1, r, h2⟩
        exact ⟨r, h1.symm, h2⟩
      · rintro ⟨r, h1, h2⟩
        exact ⟨h1.symm, r, h2⟩

/-- `strContains` decides the substring relation. -/
theorem strContains_iff : ∀ (h n : List Char),
    strContains h n = true ↔ ∃ pre post, h = pre ++ n ++ post := by
  intro h
  induction h with
  | nil =>
    intro n
    simp only [strContains, List.isEmpty_iff]
    constructor
    · intro hn
      exact ⟨[], [], by simp [hn]⟩
    · rintro ⟨pre, post, hp⟩
      have := congrArg List.length hp
      simp [List.length_append] at this
      exact List.length_eq_zero.mp (by omega)
  | cons c t ih =>
    intro n
    simp only [strContains, Bool.or_eq_true]
    constructor
    · rintro (hp | hc)
      · obtain ⟨r, hr⟩ := (listPrefixOf_iff n (c :: t)).mp hp
        exact ⟨[], r, by simp [hr]⟩
      · obtain ⟨pre, post, hp⟩ := (ih n).mp hc
        exact ⟨c :: pre, post, by simp [hp]⟩
    · rintro ⟨pre, post, hp⟩
      cases pre with
      | nil =>
        left
        exact (listPrefixOf_iff n (c :: t)).mpr ⟨post, by simpa using hp⟩
      | cons p0 pre' =>
        right
        simp only [List.cons_append, List.cons.injEq] at hp
        exact (ih n).mpr ⟨pre', post, hp.2⟩

/-- A substring occurrence survives extending the haystack on the right. -/
theorem strContains_append_right (h e n : List Char) (hc : strContains h n = true) :
    strContains (h ++ e) n = true := by
  obtain ⟨pre, post, hp⟩ := (strContains_iff h n).mp hc
  exact (strContains_iff (h ++ e) n).mpr ⟨pre, post ++ e, by simp [hp]⟩

/-- Lowercasing distributes over append. -/
theorem lowerStr_append (a b : List Char) : lowerStr (a ++ b) = lowerStr a ++ lowerStr b := by
  simp [lowerStr]

/-- Membership in a Python set after `add`. -/
theorem mem_setAdd {α} [DecidableEq α] (x y : α) (l : List α) :
    y ∈ setAdd x l ↔ y = x ∨ y ∈ l := by
  unfold setAdd
  split
  · rename_i hx
    constructor
    · exact fun h => Or.inr h
    · rintro (rfl | h)
      · exact hx
      · exact h
  · simp [or_comm]

/-- `set.update` only appends new elements at the end. -/
theorem addAll_eq_append {α} [DecidableEq α] :
    ∀ (l acc : List α), ∃ ext, addAll acc l = acc ++ ext := by
  intro l
  induction l with
  | nil => intro acc; exact ⟨[], by simp [addAll]⟩
  | cons x xs ih =>
    intro acc
    have hstep : addAll acc (x :: xs) = addAll (setAdd x acc) xs := by
      simp [addAll]
    unfold setAdd at hstep
    by_cases hx : x ∈ acc
    · rw [if_pos hx] at hstep
      obtain ⟨ext, hext⟩ := ih acc
      exact ⟨ext, by rw [hstep]; exact hext⟩
    · rw [if_neg hx] at hstep
      obtain ⟨ext, hext⟩ := ih (acc ++ [x])
      exact ⟨[x] ++ ext, by rw [hstep, hext]; simp⟩

/-- Membership in a Python set after `update`. -/
theorem mem_addAll {α} [DecidableEq α] :
    ∀ (l acc : List α) (y : α), y ∈ addAll acc l ↔ y ∈ acc ∨ y ∈ l := by
  intro l
  induction l with
  | nil => intro acc y; simp [addAll]
  | cons x xs ih =>
    intro acc y
    have hstep : addAll acc (x :: xs) = addAll (setAdd x acc) xs := by
      simp [addAll]
    rw [hstep, ih, mem_setAdd]
    simp only [List.mem_cons]
    tauto

/-- Membership in `set(iterable)` is membership in the iterable. -/
theorem mem_setFromList {α} [DecidableEq α] (l : List α) (y : α) :
    y ∈ setFromList l ↔ y ∈ l := by
  have : setFromList l = addAll [] l := by simp [setFromList, addAll]
  rw [this, mem_addAll]
  simp

/-- `set` of an appended iterable updates the set of the first part. -/
theorem setFromList_append {α} [DecidableEq α] (a b : List α) :
    setFromList (a ++ b) = addAll (setFromList a) b := by
  simp [setFromList, addAll, List.foldl_append]

/-- Looking up the key just written returns the new value. -/
theorem dictGet_dictInsert_self {α} (k : List Char) (v : α) :
    ∀ l, dictGet k (dictInsert k v l) = some v := by
  intro l
  induction l with
  | nil => simp [dictInsert, dictGet]
  | cons p rest ih =>
    by_cases hp : p.1 = k
    · simp [dictInsert, dictGet, hp]
    · simp [dictInsert, dictGet, hp, ih]

/-- Writing under a different key leaves a lookup unchanged. -/
theorem dictGet_dictInsert_ne {α} (k k' : List Char) (v : α) (hne : k' ≠ k) :
    ∀ l, dictGet k' (dictInsert k v l) = dictGet k' l := by
  have hkk : ¬ k = k' := fun h => hne h.symm
  intro l
  induction l with
  | nil => simp [dictInsert, dictGet, hkk]
  | cons p rest ih =>
    by_cases hp : p.1 = k
    · simp [dictInsert, dictGet, hp, hkk]
    · by_cases hq : p.1 = k'
      · simp [dictInsert, dictGet, hp, hq, hne]
      · simp [dictInsert, dictGet, hp, hq, ih]

/-- Entries of a dict after assignment. -/
theorem mem_dictInsert {α} (k : List Char) (v : α) :
    ∀ (l : List (List Char × α)) (p), p ∈ dictInsert k v l → p = (k, v) ∨ p ∈ l := by
  intro l
  induction l with
  | nil => intro p hp; simp [dictInsert] at hp; exact Or.inl hp
  | cons q rest ih =>
    intro p hp
    by_cases hq : q.1 = k
    · rw [dictInsert, if_pos hq] at hp
      rcases List.mem_cons.mp hp with h | h
      · left; rw [h, hq]
      · right; exact List.mem_cons_of_mem _ h
    · rw [dictInsert, if_neg hq] at hp
      rcases List.mem_cons.mp hp with h | h
      · right; exact h ▸ List.mem_cons_self _ _
      · rcases ih p h with h' | h'
        · exact Or.inl h'
        · exact Or.inr (List.mem_cons_of_mem _ h')

/-- The key list of a dict after assignment: unchanged on overwrite,
appended on a new key. -/
theorem keys_dictInsert {α} (k : List Char) (v : α) :
    ∀ (l : List (List Char × α)),
      (dictInsert k v l).map Prod.fst =
        if k ∈ l.map Prod.fst then l.map Prod.fst else l.map Prod.fst ++ [k] := by
  intro l
  induction l with
  | nil => simp [dictInsert]
  | cons q rest ih =>
    by_cases hq : q.1 = k
    · have hk : k ∈ (q :: rest).map Prod.fst := by
        rw [List.map_cons, ← hq]
        exact List.mem_cons_self _ _
      rw [dictInsert, if_pos hq, if_pos hk, List.map_cons, List.map_cons]
    · have hkq : ¬ k = q.1 := fun h => hq h.symm
      simp only [dictInsert, if_neg hq, List.map_cons, List.mem_cons, ih]
      by_cases hk : k ∈ rest.map Prod.fst
      · simp [hk, hkq]
      · simp [hk, hkq]

/-- Evaluation of `Char.ofNat` below the surrogate range. -/
theorem char_toNat_ofNat (n : Nat) (h : n < 55296) : (Char.ofNat n).toNat = n := by
  have hv : n.isValidChar := Or.inl h
  rw [Char.ofNat, dif_pos hv]
  rfl

/-- The scalar values of the whitespace characters. -/
theorem ws_toNat (d : Char) (hd : d.isWhitespace = true) :
    d.toNat = 32 ∨ d.toNat = 9 ∨ d.toNat = 13 ∨ d.toNat = 10 := by
  rw [Char.isWhitespace] at hd
  simp only [Bool.or_eq_true, decide_eq_true_eq] at hd
  rcases hd with ((h | h) | h) | h <;> subst h <;> decide

/-- Lowercasing a word character never produces whitespace. -/
theorem wordChar_toLower_not_ws (c : Char) (h : isWordChar c = true) :
    (Char.toLower c).isWhitespace = false := by
  rw [Char.toLower]
  split
  · rename_i hc
    have ht : (Char.ofNat (c.toNat + 32)).toNat = c.toNat + 32 :=
      char_toNat_ofNat _ (by omega)
    by_contra hws
    rw [Bool.not_eq_false] at hws
    have hn := ws_toNat _ hws
    rw [ht] at hn
    omega
  · by_contra hws
    rw [Bool.not_eq_false, Char.isWhitespace] at hws
    simp only [Bool.or_eq_true, decide_eq_true_eq] at hws
    rcases hws with ((h1 | h1) | h1) | h1 <;> rw [h1] at h <;> exact absurd h (by decide)

/-- `dropWhile` is the identity on whitespace-free strings. -/
theorem dropWhile_no_ws (s : List Char) (h : ∀ c ∈ s, c.isWhitespace = false) :
    s.dropWhile Char.isWhitespace = s := by
  cases s with
  | nil => rfl
  | cons a t => simp [List.dropWhile_cons, h a (List.mem_cons_self a t)]

/-- `str.strip()` is the identity on whitespace-free strings. -/
theorem pyStrip_eq_self (s : List Char) (h : ∀ c ∈ s, c.isWhitespace = false) :
    pyStrip s = s := by
  unfold pyStrip
  rw [dropWhile_no_ws s h,
    dropWhile_no_ws s.reverse (fun c hc => h c (List.mem_reverse.mp hc)),
    List.reverse_reverse]

/-- Tokens consist purely of word characters. -/
theorem tokenizeAux_word : ∀ (s cur : List Char), (∀ c ∈ cur, isWordChar c = true) →
    ∀ w ∈ tokenizeAux cur s, ∀ c ∈ w, isWordChar c = true := by
  intro s
  induction s with
  | nil =>
    intro cur hcur w hw c hc
    rw [tokenizeAux] at hw
    split at hw
    · simp at hw
    · simp only [List.mem_singleton] at hw
      subst hw
      exact hcur c (List.mem_reverse.mp hc)
  | cons c0 cs ih =>
    intro cur hcur w hw c hc
    rw [tokenizeAux] at hw
    split at hw
    · rename_i hw0
      refine ih (c0 :: cur) ?_ w hw c hc
      intro d hd
      rcases List.mem_cons.mp hd with rfl | hd'
      · exact hw0
      · exact hcur d hd'
    · split at hw
      · exact ih [] (by simp) w hw c hc
      · rcases List.mem_cons.mp hw with rfl | hw'
        · exact hcur c (List.mem_reverse.mp hc)
        · exact ih [] (by simp) w hw' c hc

/-- Every token of `tokenize` consists of word characters. -/
theorem tokenize_word (s : List Char) (w : List Char) (hw : w ∈ tokenize s) :
    ∀ c ∈ w, isWordChar c = true :=
  tokenizeAux_word s [] (by simp) w hw

/-- Description-derived keywords have length at least 3. -/
theorem descKeywords_length (desc kw : List Char) (h : kw ∈ descKeywords desc) :
    3 ≤ kw.length := by
  unfold descKeywords at h
  rw [List.mem_map] at h
  obtain ⟨w, hw, rfl⟩ := h
  rw [List.mem_filter] at hw
  obtain ⟨hw, hlen⟩ := hw
  have hword := tokenize_word desc w hw
  have hnws : ∀ c ∈ lowerStr w, c.isWhitespace = false := by
    intro c hc
    rw [lowerStr, List.mem_map] at hc
    obtain ⟨d, hd, rfl⟩ := hc
    exact wordChar_toLower_not_ws d (hword d hd)
  rw [pyStrip_eq_self _ hnws]
  have : (lowerStr w).length = w.length := by simp [lowerStr]
  rw [this]
  simp only [decide_eq_true_eq] at hlen
  omega

/-- A trailing non-word character does not change the token list. -/
theorem tokenizeAux_concat_break (d : Char) (hd : isWordChar d = false) :
    ∀ (xs cur : List Char), tokenizeAux cur (xs ++ [d]) = tokenizeAux cur xs := by
  intro xs
  induction xs with
  | nil =>
    intro cur
    cases hcur : cur.isEmpty <;> simp [tokenizeAux, hd, hcur]
  | cons x xs' ih =>
    intro cur
    cases hx : isWordChar x <;> cases hcur : cur.isEmpty <;>
      simp [tokenizeAux, hx, hcur, ih]

/-- Tokenizing splits at a non-word character. -/
theorem tokenizeAux_append_break (d : Char) (hd : isWordChar d = false) :
    ∀ (xs cur ys : List Char),
      tokenizeAux cur (xs ++ d :: ys) = tokenizeAux cur (xs ++ [d]) ++ tokenizeAux [] ys := by
  intro xs
  induction xs with
  | nil =>
    intro cur ys
    cases hcur : cur.isEmpty <;> simp [tokenizeAux, hd, hcur]
  | cons x xs' ih =>
    intro cur ys
    cases hx : isWordChar x
    case true =>
      simp only [List.cons_append, tokenizeAux, hx, if_true]
      exact ih (x :: cur) ys
    case false =>
      cases hcur : cur.isEmpty
      case true =>
        simp [tokenizeAux, hx, hcur]
        exact ih [] ys
      case false =>
        simp [tokenizeAux, hx, hcur]
        rw [ih [] ys]

/-- The token list of a string extended through a non-word separator is the
two token lists appended. -/
theorem tokenize_append_break (d : Char) (hd : isWordChar d = false) (xs ys : List Char) :
    tokenize (xs ++ d :: ys) = tokenize xs ++ tokenize ys := by
  unfold tokenize
  rw [tokenizeAux_append_break d hd xs [] ys, tokenizeAux_concat_break d hd xs []]

/-- Insertion produces a permutation. -/
theorem insertByScore_perm (x : List Char × MatchResult) :
    ∀ l, (insertByScore x l).Perm (x :: l) := by
  intro l
  induction l with
  | nil => exact List.Perm.refl _
  | cons y ys ih =>
    rw [insertByScore]
    split
    · exact List.Perm.refl _
    · exact (ih.cons y).trans (List.Perm.swap x y ys)

/-- The stable sort produces a permutation of its input. -/
theorem sortByScoreDesc_perm : ∀ l, (sortByScoreDesc l).Perm l := by
  intro l
  induction l with
  | nil => exact List.Perm.refl _
  | cons x xs ih =>
    rw [sortByScoreDesc]
    exact (insertByScore_perm x (sortByScoreDesc xs)).trans (ih.cons x)

/-- Membership after insertion. -/
theorem mem_insertByScore (x z : List Char × MatchResult) (l : List (List Char × MatchResult)) :
    z ∈ insertByScore x l ↔ z = x ∨ z ∈ l := by
  rw [(insertByScore_perm x l).mem_iff, List.mem_cons]

/-- Insertion preserves the descending-score ordering. -/
theorem insertByScore_pairwise (x : List Char × MatchResult) :
    ∀ l, List.Pairwise (fun a b => b.2.score ≤ a.2.score) l →
      List.Pairwise (fun a b => b.2.score ≤ a.2.score) (insertByScore x l) := by
  intro l
  induction l with
  | nil => intro _; simp [insertByScore]
  | cons y ys ih =>
    intro h
    rw [List.pairwise_cons] at h
    obtain ⟨hy, hys⟩ := h
    rw [insertByScore]
    split
    · rename_i hscore
      rw [List.pairwise_cons]
      constructor
      · intro z hz
        rcases List.mem_cons.mp hz with rfl | hz'
        · exact hscore
        · exact le_trans (hy z hz') hscore
      · rw [List.pairwise_cons]
        exact ⟨hy, hys⟩
    · rename_i hscore
      rw [List.pairwise_cons]
      constructor
      · intro z hz
        rcases (mem_insertByScore x z ys).mp hz with rfl | hz'
        · omega
        · exact hy z hz'
      · exact ih hys

/-- The stable sort orders entries by descending score. -/
theorem sortByScoreDesc_pairwise :
    ∀ l, List.Pairwise (fun a b => b.2.score ≤ a.2.score) (sortByScoreDesc l) := by
  intro l
  induction l with
  | nil => simp [sortByScoreDesc]
  | cons x xs ih => exact insertByScore_pairwise x (sortByScoreDesc xs) ih

/-- Insertion does not disturb the relative order of entries of any fixed
score: the filter at each score is the filter of the naive cons. -/
theorem insertByScore_filter (s : Nat) (x : List Char × MatchResult) :
    ∀ l, (insertByScore x l).filter (fun p => decide (p.2.score = s)) =
      ((x :: l).filter (fun p => decide (p.2.score = s))) := by
  intro l
  induction l with
  | nil => rfl
  | cons y ys ih =>
    rw [insertByScore]
    split
    · rfl
    · rename_i hscore
      by_cases hx : x.2.score = s
      · have hy : ¬ y.2.score = s := by omega
        simp only [List.filter_cons, ih]
        simp [hx, hy]
      · simp only [List.filter_cons, ih]
        simp [hx]

/-- Stability of the sort: at every score, the sorted list lists the entries
in their original relative order. -/
theorem sortByScoreDesc_filter (s : Nat) :
    ∀ l, (sortByScoreDesc l).filter (fun p => decide (p.2.score = s)) =
      l.filter (fun p => decide (p.2.score = s)) := by
  intro l
  induction l with
  | nil => rfl
  | cons x xs ih =>
    rw [sortByScoreDesc, insertByScore_filter s x (sortByScoreDesc xs), List.filter_cons,
      List.filter_cons]
    rw [ih]

/-- If no entry of the remaining sources both carries the name and matches,
the fold leaves that name's binding unchanged. -/
theorem analyze_foldl_absent (question : List Char) :
    ∀ (l : List (List Char × SourceInfo)) (acc : List (List Char × MatchResult))
      (name : List Char),
      (∀ p ∈ l, p.2.name = name → matchSource question p.2 = none) →
      dictGet name (l.foldl (analyzeStep question) acc) = dictGet name acc := by
  intro l
  induction l with
  | nil => intro acc name _; rfl
  | cons q0 rest ih =>
    intro acc name hnone
    rw [List.foldl_cons]
    rw [ih (analyzeStep question acc q0) name
      (fun p hp hname => hnone p (List.mem_cons_of_mem _ hp) hname)]
    unfold analyzeStep
    cases hm : matchSource question q0.2 with
    | none => rfl
    | some r =>
      have hne : q0.2.name ≠ name := by
        intro heq
        rw [hnone q0 (List.mem_cons_self _ _) heq] at hm
        exact Option.noConfusion hm
      rw [dictGet_dictInsert_ne _ _ _ (fun h => hne h.symm)]

/-- A matching source that is the unique carrier of its name among the
sources ends up bound to its match result. -/
theorem analyze_foldl_present (question : List Char) :
    ∀ (l : List (List Char × SourceInfo)) (acc : List (List Char × MatchResult))
      (p : List Char × SourceInfo) (r : MatchResult),
      p ∈ l → matchSource question p.2 = some r →
      (∀ p' ∈ l, p'.2.name = p.2.name → p' = p) →
      dictGet p.2.name (l.foldl (analyzeStep question) acc) = some r := by
  intro l
  induction l with
  | nil => intro acc p r hp _ _; exact absurd hp (List.not_mem_nil p)
  | cons q0 rest ih =>
    intro acc p r hp hm huniq
    rw [List.foldl_cons]
    by_cases hmem : p ∈ rest
    · exact ih _ p r hmem hm
        (fun p' hp' hname => huniq p' (List.mem_cons_of_mem _ hp') hname)
    · have hpq : p = q0 := by
        rcases List.mem_cons.mp hp with h | h
        · exact h
        · exact absurd h hmem
      subst hpq
      rw [analyze_foldl_absent question rest _ p.2.name ?hrest]
      case hrest =>
        intro p' hp' hname
        have := huniq p' (List.mem_cons_of_mem _ hp') hname
        rw [this] at hp'
        exact absurd hp' hmem
      unfold analyzeStep
      rw [hm, dictGet_dictInsert_self]

/-- Provenance invariant for descriptor keywords: each keyword is a
lowercased table/column/measure/dimension name, a synonym, or a
description-derived token of length at least 3. -/
def KwOk (info : SourceInfo) : Prop :=
  ∀ kw ∈ info.keywords,
    (∃ n, (n ∈ info.tables ∨ n ∈ info.columns ∨ n ∈ info.measures ∨ n ∈ info.dimensions) ∧
      kw = lowerStr n) ∨
    kw ∈ info.synonyms ∨ 3 ≤ kw.length

/-- Any property preserved by the step function survives a fold. -/
theorem foldl_preserve {β : Type} {P : SourceInfo → Prop} (f : SourceInfo → β → SourceInfo)
    (hf : ∀ i x, P i → P (f i x)) :
    ∀ (l : List β) (i : SourceInfo), P i → P (l.foldl f i) := by
  intro l
  induction l with
  | nil => intro i h; exact h
  | cons x xs ih => intro i h; exact ih (f i x) (hf i x h)

/-- The synonym-loop step preserves the keyword provenance invariant. -/
theorem kwok_syn_step (i : SourceInfo) (synonym : List Char) (h : KwOk i) :
    KwOk (if (pyStrip synonym).isEmpty then i
      else { i with synonyms := setAdd (pyStrip (lowerStr synonym)) i.synonyms,
                    keywords := setAdd (pyStrip (lowerStr synonym)) i.keywords }) := by
  split
  · exact h
  · intro kw hkw
    rcases (mem_setAdd _ kw _).mp hkw with rfl | hold
    · exact Or.inr (Or.inl ((mem_setAdd _ _ _).mpr (Or.inl rfl)))
    · rcases h kw hold with ⟨n, hn, hkeq⟩ | hsyn | hlen
      · exact Or.inl ⟨n, hn, hkeq⟩
      · exact Or.inr (Or.inl ((mem_setAdd _ _ _).mpr (Or.inr hsyn)))
      · exact Or.inr (Or.inr hlen)

/-- The column-loop step preserves the keyword provenance invariant. -/
theorem kwok_processColumn (i : SourceInfo) (c : ColumnDef) (h : KwOk i) :
    KwOk (processColumn i c) := by
  simp only [processColumn]
  refine foldl_preserve _ (fun i syn hi => kwok_syn_step i syn hi) _ _ ?_
  split
  · exact h
  · intro kw hkw
    have hmem : kw = lowerStr (pyStrip c.name) ∨ kw ∈ i.keywords ∨ kw ∈ descKeywords (pyStrip c.description) := by
      by_cases hd : (pyStrip c.description).isEmpty
      · rw [if_pos hd] at hkw
        rcases (mem_setAdd _ kw _).mp hkw with h1 | h1
        · exact Or.inl h1
        · exact Or.inr (Or.inl h1)
      · rw [if_neg hd] at hkw
        rcases (mem_addAll _ _ kw).mp hkw with h1 | h1
        · rcases (mem_setAdd _ kw _).mp h1 with h2 | h2
          · exact Or.inl h2
          · exact Or.inr (Or.inl h2)
        · exact Or.inr (Or.inr h1)
    rcases hmem with rfl | hold | hdesc
    · refine Or.inl ⟨pyStrip c.name, ?_, rfl⟩
      simp only [List.mem_append, List.mem_singleton]
      tauto
    · rcases h kw hold with ⟨n, hn, hkeq⟩ | hsyn | hlen
      · refine Or.inl ⟨n, ?_, hkeq⟩
        simp only [List.mem_append]
        tauto
      · exact Or.inr (Or.inl hsyn)
      · exact Or.inr (Or.inr hlen)
    · exact Or.inr (Or.inr (descKeywords_length _ kw hdesc))

/-- The table-loop step preserves the keyword provenance invariant. -/
theorem kwok_processTable (i : SourceInfo) (t : TableDef) (h : KwOk i) :
    KwOk (processTable i t) := by
  simp only [processTable]
  refine foldl_preserve _ (fun i c hi => ?_) _ _ ?_
  · exact kwok_processColumn i c hi
  · split
    · exact h
    · intro kw hkw
      have hmem : kw = lowerStr (pyStrip t.name) ∨ kw ∈ i.keywords ∨ kw ∈ descKeywords (pyStrip t.description) := by
        by_cases hd : (pyStrip t.description).isEmpty
        · rw [if_pos hd] at hkw
          rcases (mem_setAdd _ kw _).mp hkw with h1 | h1
          · exact Or.inl h1
          · exact Or.inr (Or.inl h1)
        · rw [if_neg hd] at hkw
          rcases (mem_addAll _ _ kw).mp hkw with h1 | h1
          · rcases (mem_setAdd _ kw _).mp h1 with h2 | h2
            · exact Or.inl h2
            · exact Or.inr (Or.inl h2)
          · exact Or.inr (Or.inr h1)
      rcases hmem with rfl | hold | hdesc
      · refine Or.inl ⟨pyStrip t.name, ?_, rfl⟩
        simp only [List.mem_append, List.mem_singleton]
        tauto
      · rcases h kw hold with ⟨n, hn, hkeq⟩ | hsyn | hlen
        · refine Or.inl ⟨n, ?_, hkeq⟩
          simp only [List.mem_append]
          tauto
        · exact Or.inr (Or.inl hsyn)
        · exact Or.inr (Or.inr hlen)
      · exact Or.inr (Or.inr (descKeywords_length _ kw hdesc))

/-- The measure-loop step preserves the keyword provenance invariant. -/
theorem kwok_processMeasure (i : SourceInfo) (ms : MeasureDef) (h : KwOk i) :
    KwOk (processMeasure i ms) := by
  simp only [processMeasure]
  refine foldl_preserve _ (fun i syn hi => kwok_syn_step i syn hi) _ _ ?_
  split
  · exact h
  · intro kw hkw
    have hmem : kw = lowerStr (pyStrip ms.name) ∨ kw ∈ i.keywords ∨ kw ∈ descKeywords (pyStrip ms.description) := by
      by_cases hd : (pyStrip ms.description).isEmpty
      · rw [if_pos hd] at hkw
        rcases (mem_setAdd _ kw _).mp hkw with h1 | h1
        · exact Or.inl h1
        · exact Or.inr (Or.inl h1)
      · rw [if_neg hd] at hkw
        rcases (mem_addAll _ _ kw).mp hkw with h1 | h1
        · rcases (mem_setAdd _ kw _).mp h1 with h2 | h2
          · exact Or.inl h2
          · exact Or.inr (Or.inl h2)
        · exact Or.inr (Or.inr h1)
    rcases hmem with rfl | hold | hdesc
    · refine Or.inl ⟨pyStrip ms.name, ?_, rfl⟩
      simp only [List.mem_append, List.mem_singleton]
      tauto
    · rcases h kw hold with ⟨n, hn, hkeq⟩ | hsyn | hlen
      · refine Or.inl ⟨n, ?_, hkeq⟩
        simp only [List.mem_append]
        tauto
      · exact Or.inr (Or.inl hsyn)
      · exact Or.inr (Or.inr hlen)
    · exact Or.inr (Or.inr (descKeywords_length _ kw hdesc))

/-- The dimension-loop step preserves the keyword provenance invariant. -/
theorem kwok_processDimension (i : SourceInfo) (d : DimensionDef) (h : KwOk i) :
    KwOk (processDimension i d) := by
  simp only [processDimension]
  split
  · exact h
  · intro kw hkw
    have hmem : kw = lowerStr (pyStrip d.name) ∨ kw ∈ i.keywords ∨ kw ∈ descKeywords (pyStrip d.description) := by
      by_cases hd : (pyStrip d.description).isEmpty
      · rw [if_pos hd] at hkw
        rcases (mem_setAdd _ kw _).mp hkw with h1 | h1
        · exact Or.inl h1
        · exact Or.inr (Or.inl h1)
      · rw [if_neg hd] at hkw
        rcases (mem_addAll _ _ kw).mp hkw with h1 | h1
        · rcases (mem_setAdd _ kw _).mp h1 with h2 | h2
          · exact Or.inl h2
          · exact Or.inr (Or.inl h2)
        · exact Or.inr (Or.inr h1)
    rcases hmem with rfl | hold | hdesc
    · refine Or.inl ⟨pyStrip d.name, ?_, rfl⟩
      simp only [List.mem_append, List.mem_singleton]
      tauto
    · rcases h kw hold with ⟨n, hn, hkeq⟩ | hsyn | hlen
      · refine Or.inl ⟨n, ?_, hkeq⟩
        simp only [List.mem_append]
        tauto
      · exact Or.inr (Or.inl hsyn)
      · exact Or.inr (Or.inr hlen)
    · exact Or.inr (Or.inr (descKeywords_length _ kw hdesc))

/-- A built descriptor satisfies the keyword provenance invariant. -/
theorem kwok_buildSource (model : LogicalModel) : KwOk (buildSource model) := by
  simp only [buildSource]
  refine foldl_preserve _ (fun i d hi => kwok_processDimension i d hi) _ _ ?_
  refine foldl_preserve _ (fun i ms hi => kwok_processMeasure i ms hi) _ _ ?_
  refine foldl_preserve _ (fun i t hi => kwok_processTable i t hi) _ _ ?_
  intro kw hkw
  exact absurd hkw (List.not_mem_nil kw)

/-- Every entry of a built catalog is a built descriptor. -/
theorem load_mem (input : Option SemanticModel) :
    ∀ p ∈ load_semantic_model_structure input, ∃ model, p.2 = buildSource model := by
  cases input with
  | none => intro p hp; exact absurd hp (List.not_mem_nil p)
  | some sm =>
    suffices hgen : ∀ (l : List LogicalModel) (acc : List (List Char × SourceInfo)),
        (∀ p ∈ acc, ∃ model, p.2 = buildSource model) →
        ∀ p ∈ l.foldl loadStep acc, ∃ model, p.2 = buildSource model by
      intro p hp
      exact hgen sm.logical_models [] (fun p hp => absurd hp (List.not_mem_nil p)) p hp
    intro l
    induction l with
    | nil => intro acc hacc p hp; exact hacc p hp
    | cons m rest ih =>
      intro acc hacc p hp
      rw [List.foldl_cons] at hp
      refine ih (loadStep acc m) ?_ p hp
      intro q hq
      simp only [loadStep] at hq
      split at hq
      · exact hacc q hq
      · split at hq
        · exact hacc q hq
        · rcases mem_dictInsert _ _ _ q hq with rfl | hq'
          · exact ⟨m, rfl⟩
          · exact hacc q hq'

/-- The column loop never changes the descriptor name. -/
theorem processColumn_name (i : SourceInfo) (c : ColumnDef) :
    (processColumn i c).name = i.name := by
  simp only [processColumn]
  refine @foldl_preserve _ (fun j => j.name = i.name) _ ?_ _ _ ?_
  · intro j syn hj
    split
    · exact hj
    · exact hj
  · split
    · rfl
    · rfl

/-- The table loop never changes the descriptor name. -/
theorem processTable_name (i : SourceInfo) (t : TableDef) :
    (processTable i t).name = i.name := by
  simp only [processTable]
  have hbase : (if (pyStrip t.name).isEmpty then i
      else { i with tables := i.tables ++ [pyStrip t.name],
                    keywords := if (pyStrip t.description).isEmpty
                      then setAdd (lowerStr (pyStrip t.name)) i.keywords
                      else addAll (setAdd (lowerStr (pyStrip t.name)) i.keywords)
                        (descKeywords (pyStrip t.description)) }).name = i.name := by
    split
    · rfl
    · rfl
  refine @foldl_preserve _ (fun j => j.name = i.name) _ ?_ _ _ hbase
  intro j c hj
  rw [processColumn_name j c]
  exact hj

/-- The measure loop never changes the descriptor name. -/
theorem processMeasure_name (i : SourceInfo) (ms : MeasureDef) :
    (processMeasure i ms).name = i.name := by
  simp only [processMeasure]
  refine @foldl_preserve _ (fun j => j.name = i.name) _ ?_ _ _ ?_
  · intro j syn hj
    split
    · exact hj
    · exact hj
  · split
    · rfl
    · rfl

/-- The dimension loop never changes the descriptor name. -/
theorem processDimension_name (i : SourceInfo) (d : DimensionDef) :
    (processDimension i d).name = i.name := by
  simp only [processDimension]
  split
  · rfl
  · rfl

/-- A built descriptor's name is the stripped model name. -/
theorem buildSource_name (model : LogicalModel) :
    (buildSource model).name = pyStrip model.name := by
  simp only [buildSource]
  refine @foldl_preserve _ (fun j => j.name = pyStrip model.name) _ ?_ _ _ ?_
  · intro j d hj
    rw [processDimension_name j d]
    exact hj
  refine @foldl_preserve _ (fun j => j.name = pyStrip model.name) _ ?_ _ _ ?_
  · intro j ms hj
    rw [processMeasure_name j ms]
    exact hj
  refine @foldl_preserve _ (fun j => j.name = pyStrip model.name) _ ?_ _ _ ?_
  · intro j t hj
    rw [processTable_name j t]
    exact hj
  · rfl

/-- Catalog well-formedness: keys are duplicate-free and each key is the
lowercased descriptor name. -/
def CatalogWF (ds : List (List Char × SourceInfo)) : Prop :=
  (ds.map Prod.fst).Nodup ∧ ∀ p ∈ ds, p.1 = lowerStr p.2.name

/-- A dict assignment preserves catalog well-formedness when the written
value's lowercased name is the key. -/
theorem catalogWF_dictInsert (k : List Char) (v : SourceInfo) (ds : List (List Char × SourceInfo))
    (hwf : CatalogWF ds) (hk : k = lowerStr v.name) : CatalogWF (dictInsert k v ds) := by
  obtain ⟨hnodup, hkeys⟩ := hwf
  constructor
  · rw [keys_dictInsert]
    split
    · exact hnodup
    · rename_i hnotin
      rw [List.nodup_append]
      refine ⟨hnodup, List.nodup_singleton k, ?_⟩
      intro a ha hb
      rw [List.mem_singleton] at hb
      subst hb
      exact hnotin ha
  · intro p hp
    rcases mem_dictInsert k v ds p hp with rfl | hp'
    · exact hk
    · exact hkeys p hp'

/-- The built catalog is well-formed. -/
theorem load_catalogWF (input : Option SemanticModel) :
    CatalogWF (load_semantic_model_structure input) := by
  cases input with
  | none => exact ⟨List.nodup_nil, fun p hp => absurd hp (List.not_mem_nil p)⟩
  | some sm =>
    suffices hgen : ∀ (l : List LogicalModel) (acc : List (List Char × SourceInfo)),
        CatalogWF acc → CatalogWF (l.foldl loadStep acc) from
      hgen sm.logical_models [] ⟨List.nodup_nil, fun p hp => absurd hp (List.not_mem_nil p)⟩
    intro l
    induction l with
    | nil => intro acc hacc; exact hacc
    | cons m rest ih =>
      intro acc hacc
      rw [List.foldl_cons]
      refine ih (loadStep acc m) ?_
      simp only [loadStep]
      split
      · exact hacc
      · split
        · exact hacc
        · exact catalogWF_dictInsert _ _ acc hacc (by rw [buildSource_name])

/-- The descriptor names of a well-formed catalog are duplicate-free. -/
theorem catalogWF_names_nodup (ds : List (List Char × SourceInfo)) (hwf : CatalogWF ds) :
    (ds.map (fun p => p.2.name)).Nodup := by
  obtain ⟨hnodup, hkeys⟩ := hwf
  have hmap : ds.map Prod.fst = (ds.map (fun p => p.2.name)).map lowerStr := by
    rw [List.map_map]
    exact List.map_congr_left hkeys
  rw [hmap] at hnodup
  exact hnodup.of_map lowerStr

/-- A successful `find?` splits the list at the first satisfying element. -/
theorem find?_some_split {α} (p : α → Bool) :
    ∀ (l : List α) (r : α), l.find? p = some r →
      ∃ l1 l2, l = l1 ++ r :: l2 ∧ p r = true ∧ ∀ x ∈ l1, p x = false := by
  intro l
  induction l with
  | nil => intro r h; simp at h
  | cons a t ih =>
    intro r h
    cases hpa : p a with
    | true =>
      rw [List.find?_cons_of_pos _ hpa, Option.some.injEq] at h
      subst h
      exact ⟨[], t, rfl, hpa, fun x hx => absurd hx (List.not_mem_nil x)⟩
    | false =>
      rw [List.find?_cons_of_neg _ (by simp [hpa])] at h
      obtain ⟨l1, l2, heq, hr, hfront⟩ := ih r h
      refine ⟨a :: l1, l2, by rw [heq]; rfl, hr, ?_⟩
      intro x hx
      rcases List.mem_cons.mp hx with rfl | hx'
      · exact hpa
      · exact hfront x hx'

/-- Pointwise implication between filters bounds their lengths. -/
theorem length_filter_le_of_imp {α} (p q : α → Bool) :
    ∀ (l : List α), (∀ x ∈ l, p x = true → q x = true) →
      (l.filter p).length ≤ (l.filter q).length := by
  intro l
  induction l with
  | nil => intro _; exact Nat.le_refl 0
  | cons a t ih =>
    intro h
    have hih := ih (fun x hx => h x (List.mem_cons_of_mem _ hx))
    cases hpa : p a with
    | false =>
      cases hqa : q a with
      | false => simpa [List.filter_cons, hpa, hqa] using hih
      | true =>
        simp [List.filter_cons, hpa, hqa]
        omega
    | true =>
      have hq := h a (List.mem_cons_self _ _) hpa
      cases hqa : q a with
      | false => rw [hqa] at hq; exact Bool.noConfusion hq
      | true =>
        simp [List.filter_cons, hpa, hqa]
        omega

/-- Pattern 1 only matches where salesforcedb occurs. -/
theorem tryPat1_occurs (s r m rest : List Char) (h : tryPat1 s = some (r, m, rest)) :
    strContains (lowerStr s) sfdbPat = true := by
  cases s with
  | nil => simp [tryPat1] at h
  | cons c0 s1 =>
    simp only [tryPat1] at h
    split at h
    case isFalse => simp at h
    case isTrue =>
      cases hm1 : matchCI sfdbPat s1 with
      | none => rw [hm1] at h; simp at h
      | some pr1 =>
        obtain ⟨sfdb, s2⟩ := pr1
        obtain ⟨hs1, -, hlow⟩ := matchCI_eq _ _ _ _ hm1
        rw [strContains_iff]
        refine ⟨[Char.toLower c0], lowerStr s2, ?_⟩
        rw [hs1, ← hlow]
        simp [lowerStr]

/-- Pattern 2 only matches where salesforcedb occurs. -/
theorem tryPat2_occurs (b : Bool) (s r m rest : List Char)
    (h : tryPat2 b s = some (r, m, rest)) : strContains (lowerStr s) sfdbPat = true := by
  simp only [tryPat2] at h
  split at h
  case isTrue => simp at h
  case isFalse =>
    cases hm1 : matchCI sfdbPat s with
    | none => rw [hm1] at h; simp at h
    | some pr1 =>
      obtain ⟨sfdb, s2⟩ := pr1
      obtain ⟨hs, -, hlow⟩ := matchCI_eq _ _ _ _ hm1
      rw [strContains_iff]
      refine ⟨[], lowerStr s2, ?_⟩
      rw [hs, ← hlow]
      simp [lowerStr]

/-- Pattern 3 only matches where salesforcedb occurs. -/
theorem tryPat3_occurs (s r m rest : List Char) (h : tryPat3 s = some (r, m, rest)) :
    strContains (lowerStr s) sfdbPat = true := by
  cases s with
  | nil => simp [tryPat3] at h
  | cons c0 s1 =>
    simp only [tryPat3] at h
    split at h
    case isFalse => simp at h
    case isTrue =>
      cases hm1 : matchCI sfdbPat s1 with
      | none => rw [hm1] at h; simp at h
      | some pr1 =>
        obtain ⟨sfdb, s2⟩ := pr1
        obtain ⟨hs1, -, hlow⟩ := matchCI_eq _ _ _ _ hm1
        rw [strContains_iff]
        refine ⟨[Char.toLower c0], lowerStr s2, ?_⟩
        rw [hs1, ← hlow]
        simp [lowerStr]

/-- Pattern 4 only matches where salesforcedb occurs. -/
theorem tryPat4_occurs (b : Bool) (s r m rest : List Char)
    (h : tryPat4 b s = some (r, m, rest)) : strContains (lowerStr s) sfdbPat = true := by
  simp only [tryPat4] at h
  split at h
  case isTrue => simp at h
  case isFalse =>
    cases hm1 : matchCI sfdbPat s with
    | none => rw [hm1] at h; simp at h
    | some pr1 =>
      obtain ⟨sfdb, s2⟩ := pr1
      obtain ⟨hs, -, hlow⟩ := matchCI_eq _ _ _ _ hm1
      rw [strContains_iff]
      refine ⟨[], lowerStr s2, ?_⟩
      rw [hs, ← hlow]
      simp [lowerStr]

/-- A substitution pass whose pattern requires salesforcedb is the identity
on strings free of that identifier. -/
theorem runSub_id (tm : Bool → List Char → Option (List Char × List Char × List Char))
    (htm : ∀ b s r m rest, tm b s = some (r, m, rest) → rest.length < s.length)
    (hocc : ∀ b s r m rest, tm b s = some (r, m, rest) →
      strContains (lowerStr s) sfdbPat = true) :
    ∀ (s : List Char) (b : Bool), strContains (lowerStr s) sfdbPat = false →
      runSub tm htm b s = s := by
  intro s
  induction s with
  | nil =>
    intro b hno
    rw [runSub]
    split
    · rename_i r m rest heq
      rw [hocc b [] r m rest heq] at hno
      exact Bool.noConfusion hno
    · rfl
  | cons c cs ih =>
    intro b hno
    have hnocs : strContains (lowerStr cs) sfdbPat = false := by
      cases hcs : strContains (lowerStr cs) sfdbPat with
      | false => rfl
      | true =>
        have hup : strContains (lowerStr (c :: cs)) sfdbPat = true := by
          show strContains (Char.toLower c :: lowerStr cs) sfdbPat = true
          rw [strContains, hcs, Bool.or_true]
        rw [hup] at hno
        exact Bool.noConfusion hno
    rw [runSub]
    split
    · rename_i r m rest heq
      rw [hocc b (c :: cs) r m rest heq] at hno
      exact Bool.noConfusion hno
    · show c :: runSub tm htm (isWordChar c) cs = c :: cs
      rw [ih (isWordChar c) hnocs]

/-- `modify_salesforce_query` is the identity on SQL not mentioning
salesforcedb (case-insensitively). -/
theorem modify_salesforce_query_id (sql : List Char)
    (hno : strContains (lowerStr sql) sfdbPat = false) :
    modify_salesforce_query sql = sql := by
  simp only [modify_salesforce_query]
  rw [runSub_id _ _ (fun b s r m rest h => tryPat1_occurs s r m rest h) sql false hno,
    runSub_id _ _ (fun b s r m rest h => tryPat2_occurs b s r m rest h) sql false hno,
    runSub_id _ _ (fun b s r m rest h => tryPat3_occurs s r m rest h) sql false hno,
    runSub_id _ _ (fun b s r m rest h => tryPat4_occurs b s r m rest h) sql false hno]

/-- The matcher score of one source for a question: 0 when the source is
absent from the match mapping. -/
def sourceScoreOf (question : List Char) (info : SourceInfo) : Nat :=
  match matchSource question info with
  | none => 0
  | some r => r.score

/-- Total exact-name bonus hits of a question against one source. -/
def exactHitsCount (question_lower : List Char) (info : SourceInfo) : Nat :=
  (info.tables.filter fun t => strContains question_lower (lowerStr t)).length +
    (info.columns.filter fun c => strContains question_lower (lowerStr c)).length +
    (info.measures.filter fun m => strContains question_lower (lowerStr m)).length

/-- Closed form of the per-source score. -/
theorem sourceScoreOf_eq (question : List Char) (info : SourceInfo) :
    sourceScoreOf question info =
      if ((setFromList (tokenize (lowerStr question))).filter
          (fun w => decide (w ∈ setFromList info.keywords))).isEmpty
      then 0
      else ((setFromList (tokenize (lowerStr question))).filter
          (fun w => decide (w ∈ setFromList info.keywords))).length
        + 2 * exactHitsCount (lowerStr question) info := by
  by_cases hc : ((setFromList (tokenize (lowerStr question))).filter
      (fun w => decide (w ∈ setFromList info.keywords))).isEmpty = true
  · simp [sourceScoreOf, matchSource, hc]
  · simp [sourceScoreOf, matchSource, hc, exactHitsCount]

/-- Appending a space-separated mention to the question cannot decrease a
source's score. -/
theorem sourceScore_mono (info : SourceInfo) (q n : List Char) :
    sourceScoreOf q info ≤ sourceScoreOf (q ++ ' ' :: n) info := by
  have hsp : Char.toLower ' ' = ' ' := by decide
  have hwsp : isWordChar ' ' = false := by decide
  have hlow : lowerStr (q ++ ' ' :: n) = lowerStr q ++ ' ' :: lowerStr n := by
    rw [lowerStr_append]
    show lowerStr q ++ lowerStr (' ' :: n) = lowerStr q ++ ' ' :: lowerStr n
    simp [lowerStr, hsp]
  have htok : tokenize (lowerStr (q ++ ' ' :: n)) =
      tokenize (lowerStr q) ++ tokenize (lowerStr n) := by
    rw [hlow, tokenize_append_break ' ' hwsp]
  obtain ⟨ext, hext⟩ :=
    addAll_eq_append (tokenize (lowerStr n)) (setFromList (tokenize (lowerStr q)))
  have hqw : setFromList (tokenize (lowerStr (q ++ ' ' :: n))) =
      setFromList (tokenize (lowerStr q)) ++ ext := by
    rw [htok, setFromList_append, hext]
  have hhits : exactHitsCount (lowerStr q) info ≤
      exactHitsCount (lowerStr (q ++ ' ' :: n)) info := by
    have hmono : ∀ x, strContains (lowerStr q) x = true →
        strContains (lowerStr (q ++ ' ' :: n)) x = true := by
      intro x hx
      rw [lowerStr_append]
      exact strContains_append_right _ _ _ hx
    unfold exactHitsCount
    have h1 := length_filter_le_of_imp
      (fun t => strContains (lowerStr q) (lowerStr t))
      (fun t => strContains (lowerStr (q ++ ' ' :: n)) (lowerStr t))
      info.tables (fun t _ ht => hmono (lowerStr t) ht)
    have h2 := length_filter_le_of_imp
      (fun c => strContains (lowerStr q) (lowerStr c))
      (fun c => strContains (lowerStr (q ++ ' ' :: n)) (lowerStr c))
      info.columns (fun c _ hc => hmono (lowerStr c) hc)
    have h3 := length_filter_le_of_imp
      (fun m => strContains (lowerStr q) (lowerStr m))
      (fun m => strContains (lowerStr (q ++ ' ' :: n)) (lowerStr m))
      info.measures (fun m _ hm => hmono (lowerStr m) hm)
    omega
  rw [sourceScoreOf_eq, sourceScoreOf_eq, hqw, List.filter_append]
  by_cases hM : ((setFromList (tokenize (lowerStr q))).filter
      (fun w => decide (w ∈ setFromList info.keywords))).isEmpty = true
  · rw [if_pos hM]
    exact Nat.zero_le _
  · rw [if_neg hM]
    have hM' : (((setFromList (tokenize (lowerStr q))).filter
        (fun w => decide (w ∈ setFromList info.keywords))) ++
        ext.filter (fun w => decide (w ∈ setFromList info.keywords))).isEmpty = false := by
      cases hMl : (setFromList (tokenize (lowerStr q))).filter
          (fun w => decide (w ∈ setFromList info.keywords)) with
      | nil => rw [hMl] at hM; exact absurd rfl hM
      | cons a t => rfl
    simp only [hM', Bool.false_eq_true, if_false, List.length_append]
    omega

/-- C1: the routing decision follows the four ordered rules of
`determine_routing_strategy`: an empty match mapping yields 'normal' with no
sources; an empty above-threshold filter yields 'normal'; a single survivor
yields 'direct' with that source as the sole entry; two or more survivors
yield 'clarify' with the sources ordered by descending score, ties keeping
the mapping's insertion order (a stable sort: permutation, descending
pairwise order, and order preservation within every score class); 'clarify'
is never returned with fewer than 2 candidates and 'direct' never with
other than exactly 1. -/
theorem c1_routing_decision_rules (sm : List (List Char × MatchResult)) (threshold : Nat) :
    (sm = [] → determine_routing_strategy sm threshold = (.normal, [], [])) ∧
    (sm.filter (fun p => threshold ≤ p.2.score) = [] →
      determine_routing_strategy sm threshold = (.normal, [], [])) ∧
    (∀ p, sm.filter (fun p => threshold ≤ p.2.score) = [p] →
      determine_routing_strategy sm threshold = (.direct, [p.1], [p])) ∧
    (2 ≤ (sm.filter (fun p => threshold ≤ p.2.score)).length →
      (determine_routing_strategy sm threshold).1 = .clarify ∧
      (determine_routing_strategy sm threshold).2.1 =
        (sortByScoreDesc (sm.filter (fun p => threshold ≤ p.2.score))).map (fun x => x.1) ∧
      (determine_routing_strategy sm threshold).2.2 =
        sm.filter (fun p => threshold ≤ p.2.score) ∧
      (sortByScoreDesc (sm.filter (fun p => threshold ≤ p.2.score))).Perm
        (sm.filter (fun p => threshold ≤ p.2.score)) ∧
      List.Pairwise (fun a b => b.2.score ≤ a.2.score)
        (sortByScoreDesc (sm.filter (fun p => threshold ≤ p.2.score))) ∧
      (∀ s, (sortByScoreDesc (sm.filter (fun p => threshold ≤ p.2.score))).filter
          (fun p => decide (p.2.score = s)) =
        (sm.filter (fun p => threshold ≤ p.2.score)).filter
          (fun p => decide (p.2.score = s)))) ∧
    ((determine_routing_strategy sm threshold).1 = .clarify →
      2 ≤ (determine_routing_strategy sm threshold).2.1.length) ∧
    ((determine_routing_strategy sm threshold).1 = .direct →
      (determine_routing_strategy sm threshold).2.1.length = 1) := by
  by_cases hsm : sm.isEmpty = true
  · have hsmeq : sm = [] := List.isEmpty_iff.mp hsm
    subst hsmeq
    refine ⟨fun _ => rfl, fun _ => rfl, ?_, ?_, ?_, ?_⟩
    · intro p hp
      simp at hp
    · intro hlen
      simp at hlen
    · intro hcl
      have hcl' : Strategy.normal = Strategy.clarify := hcl
      exact Strategy.noConfusion hcl'
    · intro hdir
      have hdir' : Strategy.normal = Strategy.direct := hdir
      exact Strategy.noConfusion hdir'
  · cases hrel : sm.filter (fun p => threshold ≤ p.2.score) with
    | nil =>
      have hd : determine_routing_strategy sm threshold = (.normal, [], []) := by
        simp only [determine_routing_strategy]
        rw [if_neg hsm, hrel]
      refine ⟨fun _ => hd, fun _ => hd, ?_, ?_, ?_, ?_⟩
      · intro p hp
        simp at hp
      · intro hlen
        simp at hlen
      · intro hcl
        rw [hd] at hcl
        have hcl' : Strategy.normal = Strategy.clarify := hcl
        exact Strategy.noConfusion hcl'
      · intro hdir
        rw [hd] at hdir
        have hdir' : Strategy.normal = Strategy.direct := hdir
        exact Strategy.noConfusion hdir'
    | cons a t =>
      cases t with
      | nil =>
        have hd : determine_routing_strategy sm threshold = (.direct, [a.1], [a]) := by
          simp only [determine_routing_strategy]
          rw [if_neg hsm, hrel]
        refine ⟨?_, ?_, ?_, ?_, ?_, ?_⟩
        · intro h
          subst h
          exact absurd rfl hsm
        · intro hf
          simp at hf
        · intro p hp
          rw [List.cons.injEq] at hp
          rw [hp.1] at hd
          exact hd
        · intro hlen
          simp at hlen
        · intro hcl
          rw [hd] at hcl
          have hcl' : Strategy.direct = Strategy.clarify := hcl
          exact Strategy.noConfusion hcl'
        · intro _
          rw [hd]
          rfl
      | cons b r =>
        have hd : determine_routing_strategy sm threshold =
            (.clarify, (sortByScoreDesc (a :: b :: r)).map (fun x => x.1), a :: b :: r) := by
          simp only [determine_routing_strategy]
          rw [if_neg hsm, hrel]
        refine ⟨?_, ?_, ?_, ?_, ?_, ?_⟩
        · intro h
          subst h
          exact absurd rfl hsm
        · intro hf
          simp at hf
        · intro p hp
          simp at hp
        · intro _
          refine ⟨by rw [hd], by rw [hd], by rw [hd], ?_, ?_, ?_⟩
          · exact sortByScoreDesc_perm _
          · exact sortByScoreDesc_pairwise _
          · intro s
            exact sortByScoreDesc_filter s _
        · intro _
          rw [hd]
          have hlen : (sortByScoreDesc (a :: b :: r)).length = (a :: b :: r).length :=
            (sortByScoreDesc_perm (a :: b :: r)).length_eq
          simp only [List.length_map, hlen, List.length_cons]
          omega
        · intro hdir
          rw [hd] at hdir
          have hdir' : Strategy.clarify = Strategy.direct := hdir
          exact Strategy.noConfusion hdir'

/-- A two-entry match mapping whose scores are 3 and 5, used to instantiate
the routing rules. -/
def c1wMatches : List (List Char × MatchResult) :=
  [("a".toList, { score := 3, matched_keywords := [], exact_matches := [], description := [] }),
   ("b".toList, { score := 5, matched_keywords := [], exact_matches := [], description := [] })]

/-- Closed instance of the C1 rules: on a concrete two-survivor mapping the
strategy is 'clarify'. -/
theorem c1_routing_decision_rules_witness :
    2 ≤ (c1wMatches.filter (fun p => (2 : Nat) ≤ p.2.score)).length ∧
    (determine_routing_strategy c1wMatches 2).1 = .clarify := by
  have h := c1_routing_decision_rules c1wMatches 2
  have hlen : 2 ≤ (c1wMatches.filter (fun p => (2 : Nat) ≤ p.2.score)).length := by decide
  exact ⟨hlen, (h.2.2.2.1 hlen).1⟩

/-- C2: the matcher tokenizes the lowercased question into a word set and,
per source, excludes the source when the overlap with its keyword set is
empty (no zero-score entry); otherwise binds the source's display name to a
result whose score is the overlap size plus 2 for each exact
table/column/measure name occurring case-insensitively as a substring of
the question, with a "kind: Name" record appended per hit.  Built catalogs
have duplicate-free display names, which the per-source characterization
assumes. -/
theorem c2_matcher_per_source :
    (∀ input, ((load_semantic_model_structure input).map (fun p => p.2.name)).Nodup) ∧
    (∀ (question : List Char) (ds : List (List Char × SourceInfo)),
      (ds.map (fun p => p.2.name)).Nodup →
      ∀ p ∈ ds,
        ((setFromList (tokenize (lowerStr question))).filter
            (fun w => decide (w ∈ setFromList p.2.keywords)) = [] →
          dictGet p.2.name (analyze_question_for_sources question ds) = none) ∧
        ((setFromList (tokenize (lowerStr question))).filter
            (fun w => decide (w ∈ setFromList p.2.keywords)) ≠ [] →
          dictGet p.2.name (analyze_question_for_sources question ds) = some
            { score := ((setFromList (tokenize (lowerStr question))).filter
                  (fun w => decide (w ∈ setFromList p.2.keywords))).length
                + 2 * ((p.2.tables.filter
                    (fun t => strContains (lowerStr question) (lowerStr t))).length
                  + (p.2.columns.filter
                    (fun c => strContains (lowerStr question) (lowerStr c))).length
                  + (p.2.measures.filter
                    (fun m => strContains (lowerStr question) (lowerStr m))).length),
              matched_keywords := (setFromList (tokenize (lowerStr question))).filter
                (fun w => decide (w ∈ setFromList p.2.keywords)),
              exact_matches :=
                (p.2.tables.filter
                    (fun t => strContains (lowerStr question) (lowerStr t))).map
                  (fun t => "table: ".toList ++ t)
                ++ (p.2.columns.filter
                    (fun c => strContains (lowerStr question) (lowerStr c))).map
                  (fun c => "column: ".toList ++ c)
                ++ (p.2.measures.filter
                    (fun m => strContains (lowerStr question) (lowerStr m))).map
                  (fun m => "measure: ".toList ++ m),
              description := p.2.description })) := by
  constructor
  · intro input
    exact catalogWF_names_nodup _ (load_catalogWF input)
  · intro question ds hnodup p hp
    have huniq : ∀ p' ∈ ds, p'.2.name = p.2.name → p' = p := by
      intro p' hp' hname
      exact List.inj_on_of_nodup_map hnodup hp' hp hname
    have hdsne : ds.isEmpty = false := by
      cases ds with
      | nil => exact absurd hp (List.not_mem_nil p)
      | cons a t => rfl
    have hana : analyze_question_for_sources question ds =
        ds.foldl (analyzeStep question) [] := by
      simp [analyze_question_for_sources, hdsne]
    constructor
    · intro hempty
      have hnonep : matchSource question p.2 = none := by
        simp [matchSource, hempty]
      rw [hana]
      rw [analyze_foldl_absent question ds [] p.2.name ?hnone]
      case hnone =>
        intro p' hp' hname
        have hpe := huniq p' hp' hname
        rw [hpe]
        exact hnonep
      rfl
    · intro hne
      have hcond : ¬ (((setFromList (tokenize (lowerStr question))).filter
          (fun w => decide (w ∈ setFromList p.2.keywords))).isEmpty = true) :=
        fun h => hne (List.isEmpty_iff.mp h)
      have hsome : matchSource question p.2 = some
          { score := ((setFromList (tokenize (lowerStr question))).filter
                (fun w => decide (w ∈ setFromList p.2.keywords))).length
              + 2 * ((p.2.tables.filter
                  (fun t => strContains (lowerStr question) (lowerStr t))).length
                + (p.2.columns.filter
                  (fun c => strContains (lowerStr question) (lowerStr c))).length
                + (p.2.measures.filter
                  (fun m => strContains (lowerStr question) (lowerStr m))).length),
            matched_keywords := (setFromList (tokenize (lowerStr question))).filter
              (fun w => decide (w ∈ setFromList p.2.keywords)),
            exact_matches :=
              (p.2.tables.filter
                  (fun t => strContains (lowerStr question) (lowerStr t))).map
                (fun t => "table: ".toList ++ t)
              ++ (p.2.columns.filter
                  (fun c => strContains (lowerStr question) (lowerStr c))).map
                (fun c => "column: ".toList ++ c)
              ++ (p.2.measures.filter
                  (fun m => strContains (lowerStr question) (lowerStr m))).map
                (fun m => "measure: ".toList ++ m),
            description := p.2.description } := by
        simp only [matchSource]
        rw [if_neg hcond]
      rw [hana]
      exact analyze_foldl_present question ds [] p _ hp hsome huniq

/-- The CRM descriptor of the witness catalog. -/
def c2wInfo : SourceInfo :=
  { name := "CRM".toList
    description := []
    keywords := ["account".toList]
    tables := ["Account".toList]
    columns := []
    synonyms := []
    measures := []
    dimensions := [] }

/-- A one-source catalog used to instantiate the matcher characterization. -/
def c2wCatalog : List (List Char × SourceInfo) :=
  [("crm".toList, c2wInfo)]

/-- Closed instance of C2: the question "show account data" scores the CRM
source with overlap 1 plus one exact table hit. -/
theorem c2_matcher_per_source_witness :
    dictGet ("CRM".toList)
        (analyze_question_for_sources ("show account data".toList) c2wCatalog) =
      some { score := 3, matched_keywords := ["account".toList],
             exact_matches := ["table: Account".toList], description := [] } := by
  have h := (c2_matcher_per_source.2 ("show account data".toList) c2wCatalog
    (by decide) ("crm".toList, c2wInfo) (by decide)).2 (by decide)
  exact h.trans (by decide)

/-- C3: with a clarification pending, the next user turn scans the reply
case-insensitively for candidate display names in candidate order (first
textual match wins); if found that source is the resolution, otherwise the
resolution falls back to the highest-ranked candidate (index 0); in both
outcomes the pending state is cleared, so at most one clarification round
occurs per question. -/
theorem c3_clarification_resolution (prompt orig : List Char) (avail : List (List Char))
    (ds : List (List Char × SourceInfo)) (h : avail ≠ []) :
    (process_user_input prompt (some ⟨orig, avail⟩) ds).2 = none ∧
    ∃ res, (process_user_input prompt (some ⟨orig, avail⟩) ds).1 =
        some (create_source_enhancement_prompt orig res ds) ∧
      ((∃ l1 l2, avail = l1 ++ res :: l2 ∧
          strContains (lowerStr prompt) (lowerStr res) = true ∧
          ∀ x ∈ l1, strContains (lowerStr prompt) (lowerStr x) = false) ∨
        ((∀ x ∈ avail, strContains (lowerStr prompt) (lowerStr x) = false) ∧
          res = avail.head h)) := by
  cases hfind : avail.find? (fun source => strContains (lowerStr prompt) (lowerStr source)) with
  | some src =>
    have hr : process_clarification_turn prompt orig avail ds =
        (create_source_enhancement_prompt orig src ds, none) := by
      simp only [process_clarification_turn]
      rw [hfind]
    have hpui : process_user_input prompt (some ⟨orig, avail⟩) ds =
        (some (create_source_enhancement_prompt orig src ds), none) := by
      simp only [process_user_input]
      rw [hr]
    obtain ⟨l1, l2, hsplit, hps, hfront⟩ := find?_some_split _ avail src hfind
    refine ⟨by rw [hpui], src, by rw [hpui], Or.inl ⟨l1, l2, hsplit, hps, ?_⟩⟩
    intro x hx
    exact hfront x hx
  | none =>
    have hr : process_clarification_turn prompt orig avail ds =
        (create_source_enhancement_prompt orig (avail.headD []) ds, none) := by
      simp only [process_clarification_turn]
      rw [hfind]
    have hpui : process_user_input prompt (some ⟨orig, avail⟩) ds =
        (some (create_source_enhancement_prompt orig (avail.headD []) ds), none) := by
      simp only [process_user_input]
      rw [hr]
    have hhead : avail.headD [] = avail.head h := by
      cases avail with
      | nil => exact absurd rfl h
      | cons a t => rfl
    have hnone := List.find?_eq_none.mp hfind
    refine ⟨by rw [hpui], avail.head h, ?_, Or.inr ⟨?_, rfl⟩⟩
    · rw [hpui, hhead]
    · intro x hx
      have hnx := hnone x hx
      cases hc : strContains (lowerStr prompt) (lowerStr x) with
      | false => rfl
      | true => exact absurd hc hnx

/-- Closed instance of C3: the reply "I meant SAP" against candidates
["SAP", "CRM"] resolves, and the pending state is cleared. -/
theorem c3_clarification_resolution_witness :
    (process_user_input ("I meant SAP".toList)
        (some ⟨"q".toList, ["SAP".toList, "CRM".toList]⟩) []).2 = none ∧
    ∃ res, (process_user_input ("I meant SAP".toList)
        (some ⟨"q".toList, ["SAP".toList, "CRM".toList]⟩) []).1 =
        some (create_source_enhancement_prompt ("q".toList) res []) ∧
      ((∃ l1 l2, ["SAP".toList, "CRM".toList] = l1 ++ res :: l2 ∧
          strContains (lowerStr ("I meant SAP".toList)) (lowerStr res) = true ∧
          ∀ x ∈ l1, strContains (lowerStr ("I meant SAP".toList)) (lowerStr x) = false) ∨
        ((∀ x ∈ ["SAP".toList, "CRM".toList],
            strContains (lowerStr ("I meant SAP".toList)) (lowerStr x) = false) ∧
          res = (["SAP".toList, "CRM".toList] : List (List Char)).head (by decide))) :=
  c3_clarification_resolution ("I meant SAP".toList) ("q".toList)
    ["SAP".toList, "CRM".toList] [] (by decide)

/-- C4: the matcher is monotonic: appending a space-separated literal
mention of one of a source's table/column/measure names to the question
cannot decrease that source's score in the match result (an absent source
counts as score 0). -/
theorem c4_matcher_monotonic (info : SourceInfo) (question n : List Char)
    (h : n ∈ info.tables ∨ n ∈ info.columns ∨ n ∈ info.measures) :
    sourceScoreOf question info ≤ sourceScoreOf (question ++ ' ' :: n) info :=
  sourceScore_mono info question n

/-- Descriptor used to instantiate matcher monotonicity. -/
def c4wInfo : SourceInfo :=
  { name := "CRM".toList
    description := []
    keywords := ["account".toList]
    tables := ["Account".toList]
    columns := []
    synonyms := []
    measures := []
    dimensions := [] }

/-- Closed instance of C4 at a concrete question and table name. -/
theorem c4_matcher_monotonic_witness :
    sourceScoreOf ("show data".toList) c4wInfo ≤
      sourceScoreOf ("show data".toList ++ ' ' :: "Account".toList) c4wInfo :=
  c4_matcher_monotonic c4wInfo ("show data".toList) ("Account".toList) (by decide)

/-- A semantic model with a two-character table name. -/
def c5Model : SemanticModel :=
  { logical_models := [
      { name := "SAP ERP".toList
        description := []
        tables := [{ name := "AB".toList, description := [], columns := [] }]
        measures := []
        dimensions := [] }] }

/-- Counterexample to C5 as stated: the builder emits the keyword "ab"
(from table name "AB"), which has length 2, so not every keyword has length
at least 3. -/
theorem c5_counterexample :
    ¬ (∀ p ∈ load_semantic_model_structure (some c5Model), ∀ kw ∈ p.2.keywords,
      3 ≤ kw.length) := by decide

/-- C5 (amended): every keyword of every descriptor of a built catalog is
either the lowercasing of one of that descriptor's table/column/measure/
dimension names, or one of its synonyms, or (when derived from a
description) a token of length at least 3; only description-derived
keywords carry the length bound. -/
theorem c5_keyword_provenance :
    ∀ (input : Option SemanticModel), ∀ p ∈ load_semantic_model_structure input,
      ∀ kw ∈ p.2.keywords,
        (∃ n, (n ∈ p.2.tables ∨ n ∈ p.2.columns ∨ n ∈ p.2.measures ∨
          n ∈ p.2.dimensions) ∧ kw = lowerStr n) ∨
        kw ∈ p.2.synonyms ∨ 3 ≤ kw.length := by
  intro input p hp kw hkw
  obtain ⟨m, hm⟩ := load_mem input p hp
  rw [hm] at hkw ⊢
  exact kwok_buildSource m kw hkw

/-- The single catalog entry built from the two-character-table model. -/
def c5Entry : List Char × SourceInfo :=
  ("sap erp".toList,
   { name := "SAP ERP".toList
     description := []
     keywords := ["ab".toList]
     tables := ["AB".toList]
     columns := []
     synonyms := []
     measures := []
     dimensions := [] })

/-- Closed instance of the amended C5 at the keyword "ab". -/
theorem c5_keyword_provenance_witness :
    (∃ n, (n ∈ c5Entry.2.tables ∨ n ∈ c5Entry.2.columns ∨ n ∈ c5Entry.2.measures ∨
      n ∈ c5Entry.2.dimensions) ∧ "ab".toList = lowerStr n) ∨
    "ab".toList ∈ c5Entry.2.synonyms ∨ 3 ≤ ("ab".toList : List Char).length :=
  c5_keyword_provenance (some c5Model) c5Entry (by decide) ("ab".toList) (by decide)

/-- The Salesforce CRM descriptor of Scenario A. -/
def c6SalesforceInfo : SourceInfo :=
  { name := "Salesforce CRM".toList
    description := []
    keywords := ["account".toList, "opportunity".toList, "lead".toList]
    tables := []
    columns := []
    synonyms := []
    measures := []
    dimensions := [] }

/-- The SAP ERP descriptor of Scenario A. -/
def c6SapInfo : SourceInfo :=
  { name := "SAP ERP".toList
    description := []
    keywords := ["invoice".toList, "vendor".toList]
    tables := []
    columns := []
    synonyms := []
    measures := []
    dimensions := [] }

/-- The two-source catalog of Scenario A. -/
def c6Catalog : List (List Char × SourceInfo) :=
  [("salesforce crm".toList, c6SalesforceInfo), ("sap erp".toList, c6SapInfo)]

/-- Counterexample to C6 as stated: on "show me accounts" the matcher does
not return Salesforce CRM with score 1 — the token "accounts" does not
equal the keyword "account", so the source is excluded entirely. -/
theorem c6_counterexample :
    ¬ ∃ r, dictGet ("Salesforce CRM".toList)
        (analyze_question_for_sources ("show me accounts".toList) c6Catalog) = some r ∧
      r.score = 1 := by
  intro hex
  obtain ⟨r, hr, -⟩ := hex
  have hana : analyze_question_for_sources ("show me accounts".toList) c6Catalog = [] := by
    decide
  rw [hana] at hr
  exact Option.noConfusion hr

/-- C6 (amended): on Scenario A's catalog, the question "show me accounts"
makes the matcher return the empty mapping (the token "accounts" does not
equal the keyword "account", and absence of overlap excludes a source), and
with threshold 2 the routing strategy is 'normal'. -/
theorem c6_scenario_a :
    analyze_question_for_sources ("show me accounts".toList) c6Catalog = [] ∧
    determine_routing_strategy
        (analyze_question_for_sources ("show me accounts".toList) c6Catalog) 2 =
      (.normal, [], []) := by
  constructor
  · decide
  · decide

/-- C7: catalog construction never aborts on bad data — a missing, empty or
unparseable schema yields the empty catalog; a model without a non-empty
(stripped) name, or whose keyword set comes out empty, is skipped without
affecting the rest; and with an empty catalog the matcher returns no
matches and every question passes through unmodified. -/
theorem c7_soft_failure :
    load_semantic_model_structure none = [] ∧
    (∀ (l1 l2 : List LogicalModel) (m : LogicalModel),
      pyStrip m.name = [] ∨ (buildSource m).keywords = [] →
      load_semantic_model_structure (some ⟨l1 ++ m :: l2⟩) =
        load_semantic_model_structure (some ⟨l1 ++ l2⟩)) ∧
    (∀ question, analyze_question_for_sources question [] = []) ∧
    (∀ prompt, process_user_input prompt none [] = (some prompt, none)) := by
  refine ⟨rfl, ?_, fun question => rfl, fun prompt => rfl⟩
  intro l1 l2 m hbad
  simp only [load_semantic_model_structure]
  rw [List.foldl_append, List.foldl_cons, List.foldl_append]
  congr 1
  simp only [loadStep]
  rcases hbad with hname | hkw
  · rw [hname]
    simp
  · by_cases hname2 : (pyStrip m.name).isEmpty
    · simp [hname2]
    · simp [hname2, hkw]

/-- A model with an empty name, used to instantiate the skip rule. -/
def c7wModel : LogicalModel :=
  { name := [], description := [], tables := [], measures := [], dimensions := [] }

/-- Closed instance of C7: a model with an empty name contributes nothing. -/
theorem c7_soft_failure_witness :
    load_semantic_model_structure (some ⟨[c7wModel]⟩) =
      load_semantic_model_structure (some ⟨[]⟩) :=
  c7_soft_failure.2.1 [] [] c7wModel (Or.inl (by decide))

/-- The five suppression patterns of the spec, matched case-insensitively:
this definition follows the spec's words, to be compared with the code's
`filter_warnings`. -/
def warningSuppressedSpec (message : List Char) : Bool :=
  ["synonyms are duplicated".toList, "synonym".toList, "may want to rename".toList,
   "to avoid ambiguity".toList, "found in columns".toList].any
    (fun pat => strContains (lowerStr message) (lowerStr pat))

/-- The two-step suppression test of `filter_warnings` equals the negated
five-way disjunction. -/
theorem bool_filter_shape (a b c d e : Bool) :
    (if (a || b) = true then false
      else if (c || (d || (e || false))) = true then false else true) =
      !(a || (b || (c || (d || (e || false))))) := by
  cases a <;> cases b <;> cases c <;> cases d <;> cases e <;> rfl

/-- C8: the warning filter suppresses exactly the warnings whose message
matches one of the five patterns case-insensitively; every other warning is
kept unchanged and in its original order. -/
theorem c8_warning_filter {α : Type} (msg : α → List Char) (ws : List α) :
    filter_warnings msg ws = ws.filter (fun w => ! warningSuppressedSpec (msg w)) := by
  unfold filter_warnings
  by_cases hws : ws.isEmpty = true
  · rw [if_pos hws, List.isEmpty_iff.mp hws]
    rfl
  · rw [if_neg hws]
    apply List.filter_congr
    intro w _
    have e1 : lowerStr ("synonyms are duplicated".toList) =
      "synonyms are duplicated".toList := by decide
    have e2 : lowerStr ("synonym".toList) = "synonym".toList := by decide
    have e3 : lowerStr ("may want to rename".toList) = "may want to rename".toList := by decide
    have e4 : lowerStr ("to avoid ambiguity".toList) = "to avoid ambiguity".toList := by decide
    have e5 : lowerStr ("found in columns".toList) = "found in columns".toList := by decide
    simp only [warningSuppressedSpec, List.any_cons, List.any_nil, e1, e2, e3, e4, e5]
    exact bool_filter_shape _ _ _ _ _

/-- C9: with no clarification pending, a prompt starting with the literal
"What questions can I ask" bypasses source analysis — the result is the
unmodified prompt with no pending state, even on a non-empty catalog. -/
theorem c9_system_prompt_bypass (prompt : List Char) (ds : List (List Char × SourceInfo))
    (h : listPrefixOf ("What questions can I ask".toList) prompt = true) :
    process_user_input prompt none ds = (some prompt, none) := by
  simp only [process_user_input]
  simp
  intro _ hpre
  have h2 : listPrefixOf ("What questions can I ask".toList) prompt = false := hpre
  rw [h] at h2
  exact Bool.noConfusion h2

/-- Descriptor for the C9 witness catalog. -/
def c9wInfo : SourceInfo :=
  { name := "Salesforce".toList
    description := []
    keywords := ["account".toList]
    tables := []
    columns := []
    synonyms := []
    measures := []
    dimensions := [] }

/-- Closed instance of C9 on a non-empty catalog. -/
theorem c9_system_prompt_bypass_witness :
    process_user_input ("What questions can I ask?".toList) none
        [("salesforce".toList, c9wInfo)] =
      (some ("What questions can I ask?".toList), none) :=
  c9_system_prompt_bypass ("What questions can I ask?".toList)
    [("salesforce".toList, c9wInfo)] (by decide)

/-- C10: for every SQL string without a case-insensitive occurrence of
"salesforcedb", `modify_salesforce_query` returns the string unchanged, and
`execute_dremio_procedure` passes exactly the rewritten form (here equal to
the raw string) to the execution procedure. -/
theorem c10_rewriter_identity (sql : List Char)
    (h : strContains (lowerStr sql) ("salesforcedb".toList) = false) :
    modify_salesforce_query sql = sql ∧
    (∀ (α : Type) (proc : List Char → α), execute_dremio_procedure proc sql = proc sql) := by
  have hid : modify_salesforce_query sql = sql := modify_salesforce_query_id sql h
  exact ⟨hid, fun α proc => by simp only [execute_dremio_procedure, hid]⟩

/-- Closed instance of C10 at a concrete query. -/
theorem c10_rewriter_identity_witness :
    modify_salesforce_query ("SELECT name FROM accounts".toList) =
      "SELECT name FROM accounts".toList ∧
    execute_dremio_procedure (fun s => s) ("SELECT name FROM accounts".toList) =
      "SELECT name FROM accounts".toList := by
  have h := c10_rewriter_identity ("SELECT name FROM accounts".toList) (by decide)
  exact ⟨h.1, h.2 (List Char) (fun s => s)⟩
